import Mathlib

/-!
Verification of the multi-dimensional array indexing resolution engine in
`test/patch_getitem.py`: the primitives `prim_slice`, `prim_gather`,
`prim_reorder` and the `__getitem__` pipeline built on them.

Arrays are shallowly embedded as shape / stride / storage-offset records over a
shared flat `Storage` buffer.  Storage carries an allocation identifier so that
view-vs-copy claims can be stated; tensors carry an object identifier `oid` so
that Python object identity (the `self is self_` check of the source) can be
stated: every primitive returns a fresh object, modelled by bumping `oid`.

The base-library calls (`torch._C._TensorBase.__getitem__`, `movedim`,
`as_strided`, `broadcast_tensors`, `nonzero`) are not part of the given source
tree; they are modelled from the spec (Section 6, "External Interfaces"), and
each such definition is marked `Modelled from the spec:` in its doc comment.
-/

set_option autoImplicit false

namespace PG

/-- Element dtypes that the indexing engine distinguishes: boolean and byte
tensors are masks, `int64` tensors are coordinate (advanced) indices. -/
inductive DType
  | bool
  | uint8
  | int64
deriving DecidableEq, Repr

/-- A flat element buffer with an allocation identifier.  Views share the
`Storage` value; copying primitives allocate a fresh identifier. -/
structure Storage where
  id : Nat
  data : List Int
deriving DecidableEq, Repr

/-- A strided tensor: shape, strides (in elements), storage offset, shared
storage, element dtype, and an object identifier `oid` modelling Python object
identity (each primitive call returns a fresh object). -/
structure Tensor where
  shape : List Nat
  stride : List Int
  offset : Int
  storage : Storage
  dtype : DType
  oid : Nat
deriving DecidableEq, Repr

instance : Inhabited Tensor := ⟨⟨[], [], 0, ⟨0, []⟩, DType.int64, 0⟩⟩

/-- Rank (`ndim`) of a tensor. -/
def Tensor.rank (t : Tensor) : Nat := t.shape.length

/-- Element lookup at a multi-index: storage offset plus the stride-weighted
index sum; reads outside the buffer yield 0 (never exercised by the claims). -/
def Tensor.val (t : Tensor) (ix : List Nat) : Int :=
  let flat : Int := t.offset + ((t.stride.zip ix).map (fun p => p.1 * (p.2 : Int))).sum
  if flat < 0 then 0 else t.storage.data.getD flat.toNat 0

/-- Row-major enumeration of all multi-indices of a shape. -/
def allIdx : List Nat → List (List Nat)
  | [] => [[]]
  | n :: rest => (List.range n).flatMap fun i => (allIdx rest).map (i :: ·)

/-- Row-major (contiguous) strides for a shape. -/
def contigStride : List Nat → List Int
  | [] => []
  | _ :: rest => (rest.prod : Int) :: contigStride rest

/-- Python `list.insert` semantics: position clamped to the list, always
inserts (so the length always grows by one). -/
def insertAt {α : Type} (l : List α) (n : Nat) (a : α) : List α := l.take n ++ a :: l.drop n

/-- Removal of the element at a position (Python `del l[n]` on a valid index). -/
def removeAt {α : Type} (l : List α) (n : Nat) : List α := l.take n ++ l.drop (n + 1)

/-- A Python `slice(start, stop, step)` literal with optional fields. -/
structure Slc where
  start : Option Int
  stop : Option Int
  step : Option Int
deriving DecidableEq, Repr

/-- The full-range slice `slice(None, None, None)` (source: `empty_slice`). -/
def empty_slice : Slc := ⟨Option.none, Option.none, Option.none⟩

/-- One entry of the `slices` argument of `prim_slice`: a slice or an integer. -/
inductive SliceOrInt
  | s (s : Slc)
  | i (v : Int)
deriving DecidableEq, Repr

/-- Error kinds of the engine, one constructor per distinct failure site
(spec Section 7; `typeError` is the `permute[i] += ndim` crash on a `None`
entry, `orderOutOfRange` the `sz[o]` crash on an out-of-range order entry,
`invalidStep` the base library's rejection of non-positive slice steps). -/
inductive Err
  | rankError
  | outOfBounds
  | shapeMismatch
  | broadcastError
  | invalidIndex
  | danglingAxis
  | orderOutOfRange
  | invalidStep
  | typeError
deriving DecidableEq, Repr

/-- Modelled from the spec: normalisation of one Python slice against a
dimension of size `n` by the base library (`StridedView`), following Python
slice semantics with the base library's requirement of a positive step.
Returns `(start, length, step)`. -/
def resolveSlc (n : Nat) (s : Slc) : Except Err (Int × Nat × Int) :=
  let step := s.step.getD 1
  if step ≤ 0 then .error .invalidStep
  else
    let start := match s.start with
      | Option.none => 0
      | some v => if v < 0 then max (v + n) 0 else min v n
    let stop := match s.stop with
      | Option.none => (n : Int)
      | some v => if v < 0 then max (v + n) 0 else min v n
    .ok (start, (max ((stop - start + step - 1) / step) 0).toNat, step)

/-- Modelled from the spec: the per-dimension action of the base library's
basic (all-slices) `__getitem__`: each dimension's size, stride and offset
contribution under its slice. -/
def applySlices : List Nat → List Int → List Slc → Except Err (List Nat × List Int × Int)
  | n :: ns, st :: sts, s :: ss => do
    let (start, len, step) ← resolveSlc n s
    let (shp, strd, off) ← applySlices ns sts ss
    .ok (len :: shp, st * step :: strd, start * st + off)
  | _, _, _ => .ok ([], [], 0)

/-- Modelled from the spec: `torch._C._TensorBase.__getitem__` applied to a
tuple of slices only (the `StridedView` external interface): a pure view with
recomputed shape, strides and offset over the same storage. -/
def base_getitem_slices (t : Tensor) (args : List Slc) : Except Err Tensor := do
  let (shp, strd, off) ← applySlices t.shape t.stride args
  .ok { shape := shp, stride := strd, offset := t.offset + off,
        storage := t.storage, dtype := t.dtype, oid := t.oid + 1 }

/-- The argument-building loop of `prim_slice` (source lines 22-32): starts
from all full-range slices, installs each given slice, and resolves each
integer index with negative wrap-around and a bounds check. -/
def buildSliceArgs (t : Tensor) : List (Nat × SliceOrInt) → List Slc → Except Err (List Slc)
  | [], args => .ok args
  | (d, SliceOrInt.s s) :: rest, args => buildSliceArgs t rest (args.set d s)
  | (d, SliceOrInt.i v) :: rest, args =>
    let n : Int := (t.shape.getD d 0 : Nat)
    let v' := if v < 0 then v + n else v
    if v' < 0 ∨ n ≤ v' then .error .outOfBounds
    else buildSliceArgs t rest (args.set d ⟨some v', some (v' + 1), Option.none⟩)

/-- `prim_slice` (source lines 8-33): multi-dimensional basic slicing; always
a view of the input. -/
def prim_slice (t : Tensor) (dims : List Nat) (slices : List SliceOrInt) : Except Err Tensor := do
  let args ← buildSliceArgs t (dims.zip slices) (List.replicate t.rank empty_slice)
  base_getitem_slices t args

/-- The per-entry lookup loop of `prim_reorder` (source lines 103-111): each
order entry yields a (size, stride) pair, `None` yielding `(1, 0)`. -/
def reorderPick (t : Tensor) : List (Option Nat) → Except Err (List (Nat × Int))
  | [] => .ok []
  | some j :: rest =>
    if j < t.rank then do
      let r ← reorderPick t rest
      .ok ((t.shape.getD j 0, t.stride.getD j 0) :: r)
    else .error .orderOutOfRange
  | Option.none :: rest => do
    let r ← reorderPick t rest
    .ok ((1, 0) :: r)

/-- `prim_reorder` (source lines 83-112): permute with squeeze of absent
size-1 axes (asserting every absent axis has size 1) and `None`-insertion of
new size-1, stride-0 axes; always a view (`as_strided` on the same storage). -/
def prim_reorder (t : Tensor) (order : List (Option Nat)) : Except Err Tensor :=
  if (List.range t.rank).all (fun i => order.contains (some i) || t.shape.getD i 0 == 1) then do
    let picked ← reorderPick t order
    .ok { shape := picked.map (·.1), stride := picked.map (·.2), offset := t.offset,
          storage := t.storage, dtype := t.dtype, oid := t.oid + 1 }
  else .error .danglingAxis

/-- Modelled from the spec: `Tensor.movedim(src, dst)` of the base library:
the axis at `src` is removed and re-inserted at `dst`; a pure view. -/
def movedim (t : Tensor) (src dst : Nat) : Tensor :=
  { t with shape := insertAt (removeAt t.shape src) dst (t.shape.getD src 0),
           stride := insertAt (removeAt t.stride src) dst (t.stride.getD src 0),
           oid := t.oid + 1 }

/-- Negative coordinate values wrap by the dimension size (base library
advanced-indexing convention). -/
def wrapIdx (v : Int) (n : Nat) : Int := if v < 0 then v + n else v

/-- Result shape of the base library's advanced `__getitem__` for the argument
pattern `prim_gather` builds, when exactly one dimension is gathered: the
broadcast block replaces dimension `d` in place, followed by the vestigial
size-1 axis from the `None`. -/
def gatherShape1 (t : Tensor) (d : Nat) (B : List Nat) : List Nat :=
  t.shape.take d ++ B ++ 1 :: t.shape.drop (d + 1)

/-- Result shape of the base library's advanced `__getitem__` for the argument
pattern `prim_gather` builds with two or more gathered dimensions (the
interposed `None`s make the advanced indices non-contiguous, so the broadcast
block moves to the front). -/
def gatherShapeN (t : Tensor) (dims : List Nat) (B : List Nat) : List Nat :=
  B ++ (List.range t.rank).map (fun i => if i ∈ dims then 1 else t.shape.getD i 0)

/-- Element function of the single-dimension advanced-indexing result: the
result index splits as `pre ++ b ++ [_] ++ post` around the broadcast block. -/
def advVal1 (t : Tensor) (d : Nat) (idxT : Tensor) (B : List Nat) (ix : List Nat) : Int :=
  let pre := ix.take d
  let b := (ix.drop d).take B.length
  let post := ix.drop (d + B.length + 1)
  t.val (pre ++ (wrapIdx (idxT.val b) (t.shape.getD d 0)).toNat :: post)

/-- Element function of the multi-dimension advanced-indexing result: the
result index splits as `b ++ c` with the broadcast block in front. -/
def advValN (t : Tensor) (dims : List Nat) (idxs : List Tensor) (B : List Nat) (ix : List Nat) : Int :=
  let b := ix.take B.length
  let c := ix.drop B.length
  t.val ((List.range t.rank).map fun i =>
    if i ∈ dims then (wrapIdx (((idxs.getD (dims.indexOf i) default).val b)) (t.shape.getD i 0)).toNat
    else c.getD i 0)

/-- Modelled from the spec: `torch._C._TensorBase.__getitem__` on the argument
pattern built by `prim_gather` (each gathered dimension's index tensor followed
by `None`, full slices elsewhere): a broadcast-gather copy into newly
allocated storage (the `Gather` external interface). -/
def base_getitem_adv (t : Tensor) (dims : List Nat) (idxs : List Tensor) : Tensor :=
  let B := (idxs.headD default).shape
  let shp := if dims.length = 1 then gatherShape1 t (dims.headD 0) B else gatherShapeN t dims B
  let f : List Nat → Int :=
    if dims.length = 1 then advVal1 t (dims.headD 0) (idxs.headD default) B else advValN t dims idxs B
  { shape := shp, stride := contigStride shp, offset := 0,
    storage := ⟨t.storage.id + 1, (allIdx shp).map f⟩, dtype := t.dtype, oid := t.oid + 1 }

/-- `prim_gather` (source lines 36-81): the base advanced-indexing call, then,
when only one dimension was gathered, the broadcast block is moved to the
front one axis at a time with `movedim`. -/
def prim_gather (t : Tensor) (dims : List Nat) (indices : List Tensor) : Tensor :=
  let r := base_getitem_adv t dims indices
  if indices.length = 1 then
    (List.range (indices.headD default).rank).foldl
      (fun r i => movedim r (dims.headD 0 + i) i) r
  else r

/-- Broadcast compatibility of two aligned dimension sizes. -/
def bcastDim (a b : Nat) : Option Nat :=
  if a = b then some a else if a = 1 then some b else if b = 1 then some a else Option.none

/-- Broadcast of two shapes, right-aligned, padding the shorter with 1s. -/
def bcastShape2 (a b : List Nat) : Option (List Nat) :=
  let n := max a.length b.length
  let a' := List.replicate (n - a.length) 1 ++ a
  let b' := List.replicate (n - b.length) 1 ++ b
  (a'.zip b').mapM fun p => bcastDim p.1 p.2

/-- Broadcast shape of a list of shapes. -/
def broadcastShapes (l : List (List Nat)) : Option (List Nat) :=
  l.foldlM bcastShape2 []

/-- Modelled from the spec: `Tensor.expand` to a broadcast shape: a view whose
broadcast axes get stride 0. -/
def expandTo (t : Tensor) (B : List Nat) : Tensor :=
  let pad := B.length - t.rank
  { t with shape := B,
           stride := List.replicate pad 0 ++
             ((t.shape.zip (B.drop pad)).zip t.stride).map
               (fun p => if p.1.1 = p.1.2 then p.2 else 0) }

/-- Modelled from the spec: `torch.broadcast_tensors` (the `Broadcast`
external interface): fails when the shapes are incompatible, otherwise expands
every tensor to the common shape. -/
def broadcast_tensors (ts : List Tensor) : Except Err (List Tensor) :=
  match broadcastShapes (ts.map (·.shape)) with
  | some B => .ok (ts.map (expandTo · B))
  | Option.none => .error .broadcastError

/-- Modelled from the spec: `mask.nonzero().unbind(dim=1)` (the `Nonzero`
external interface): one `int64` coordinate tensor per mask axis, each of
length the number of true entries, in row-major order. -/
def nonzero (m : Tensor) : List Tensor :=
  let idxs := (allIdx m.shape).filter (fun ix => m.val ix ≠ 0)
  (List.range m.rank).map fun j =>
    { shape := [idxs.length], stride := [1], offset := 0,
      storage := ⟨m.storage.id + 1 + j, idxs.map (fun ix => (ix.getD j 0 : Int))⟩,
      dtype := DType.int64, oid := m.oid + 1 + j }

/-- One element of a (tuple-normalised) raw index expression: `None`,
`Ellipsis`, an integer, a slice, a tensor, or a raw Python `bool` literal
(which `wrap_sequences` converts to a 0-dim boolean tensor). -/
inductive RawIdx
  | noneIdx
  | ellipsis
  | intIdx (v : Int)
  | slc (s : Slc)
  | tensor (a : Tensor)
  | boolLit (b : Bool)
deriving DecidableEq, Repr

/-- Whether a dtype is treated as a mask (`torch.bool` or `torch.uint8`). -/
def isMaskD (d : DType) : Bool := d matches DType.bool | DType.uint8

/-- `torch.tensor(b)` for a Python bool: a 0-dim boolean tensor. -/
def scalarBoolTensor (b : Bool) : Tensor :=
  { shape := [], stride := [], offset := 0,
    storage := ⟨0, [if b then 1 else 0]⟩, dtype := DType.bool, oid := 0 }

/-- `wrap_sequences` (source lines 160-165) restricted to the embedded index
grammar: a raw bool becomes a 0-dim boolean tensor; everything else passes
through (nested non-tensor sequences are outside the embedded grammar). -/
def wrap_sequences : RawIdx → RawIdx
  | RawIdx.boolLit b => RawIdx.tensor (scalarBoolTensor b)
  | x => x

/-- `n_specified` (source lines 148-158): consumed-dimension count of one
index element: `None`/bool/`Ellipsis` count 0, a boolean or byte tensor counts
its rank, anything else counts 1. -/
def n_specified : RawIdx → Nat
  | RawIdx.noneIdx => 0
  | RawIdx.boolLit _ => 0
  | RawIdx.ellipsis => 0
  | RawIdx.tensor a => if isMaskD a.dtype then a.rank else 1
  | _ => 1

/-- Whether an index element is a `uint8` tensor (these trigger the
deprecation warning in `n_specified`). -/
def isByteTensor : RawIdx → Bool
  | RawIdx.tensor a => a.dtype = DType.uint8
  | _ => false

/-- State of the mask-expansion loop (source lines 186-204): the corrective
reorder order under construction, the current source-dimension cursor `i`,
and the rewritten index list. -/
structure MaskState where
  initial_reorder : List (Option Nat)
  i : Nat
  new_index : List RawIdx
deriving DecidableEq, Repr

/-- The mask-expansion loop (source lines 186-204): boolean/byte mask tensors
are turned into integer coordinate tensors via `nonzero`; a 0-rank mask first
records a new-axis insertion in `initial_reorder` and is reordered to rank 1;
a rank-k mask must match the source shape over the next k dimensions. -/
def maskLoop (self : Tensor) (st : MaskState) : List RawIdx → Except Err MaskState
  | [] => .ok st
  | RawIdx.tensor a :: rest =>
    if isMaskD a.dtype then
      if a.rank = 0 then do
        let ir := insertAt st.initial_reorder (st.i + (st.initial_reorder.length - self.rank)) Option.none
        let a' ← prim_reorder a [Option.none]
        maskLoop self ⟨ir, st.i, st.new_index ++ (nonzero a').map RawIdx.tensor⟩ rest
      else
        if a.shape = (self.shape.drop st.i).take a.rank then
          maskLoop self ⟨st.initial_reorder, st.i + a.rank,
                         st.new_index ++ (nonzero a).map RawIdx.tensor⟩ rest
        else .error .shapeMismatch
    else
      maskLoop self ⟨st.initial_reorder, st.i + 1, st.new_index ++ [RawIdx.tensor a]⟩ rest
  | RawIdx.noneIdx :: rest =>
    maskLoop self ⟨st.initial_reorder, st.i, st.new_index ++ [RawIdx.noneIdx]⟩ rest
  | idx :: rest =>
    maskLoop self ⟨st.initial_reorder, st.i + 1, st.new_index ++ [idx]⟩ rest

/-- State of the plan-building loop (source lines 210-249). -/
structure PlanState where
  slice_dims : List Nat
  slices : List SliceOrInt
  gather_dims : List Nat
  gather_tensors : List Tensor
  permute : List (Option Nat)
  has_none : Bool
  offset : Nat
  seen : Nat
  gip : Option Nat
deriving DecidableEq, Repr

/-- Initial plan-building state. -/
def planInit : PlanState := ⟨[], [], [], [], [], false, 0, 0, Option.none⟩

/-- The advanced-index insertion point update of the plan-building loop
(source lines 240-244): the first advanced slot fixes it at the current
`seen`; a later advanced slot whose `seen` differs forces it to 0. -/
def gipUpd (g : Option Nat) (seen : Nat) : Option Nat :=
  match g with
  | Option.none => some seen
  | some p => if p ≠ seen then some 0 else some p

/-- The plan-building loop (source lines 224-249): classifies each canonical
slot into the slice plan, the gather plan and the permutation plan, tracking
the source-dimension cursor `offset`, the output-position counter `seen`, and
the advanced-index insertion point `gip` (fixed at the first advanced slot's
`seen`, forced to 0 when a later advanced slot's `seen` differs).  A raw bool
literal is an `int` instance in Python and is treated as its integer value. -/
def planLoop (st : PlanState) : List RawIdx → Except Err PlanState
  | [] => .ok st
  | RawIdx.noneIdx :: rest =>
    planLoop { st with permute := st.permute ++ [Option.none], has_none := true,
                       seen := st.seen + 1 } rest
  | RawIdx.intIdx v :: rest =>
    planLoop { st with slice_dims := st.slice_dims ++ [st.offset],
                       slices := st.slices ++ [SliceOrInt.i v],
                       offset := st.offset + 1 } rest
  | RawIdx.boolLit b :: rest =>
    planLoop { st with slice_dims := st.slice_dims ++ [st.offset],
                       slices := st.slices ++ [SliceOrInt.i (if b then 1 else 0)],
                       offset := st.offset + 1 } rest
  | RawIdx.slc s :: rest =>
    let st' := if s = empty_slice then st
      else { st with slice_dims := st.slice_dims ++ [st.offset],
                     slices := st.slices ++ [SliceOrInt.s s] }
    planLoop { st' with permute := st'.permute ++ [some st'.offset],
                        seen := st'.seen + 1, offset := st'.offset + 1 } rest
  | RawIdx.tensor a :: rest =>
    planLoop { st with gather_dims := st.gather_dims ++ [st.offset],
                       gather_tensors := st.gather_tensors ++ [a],
                       gip := gipUpd st.gip st.seen, offset := st.offset + 1 } rest
  | RawIdx.ellipsis :: _ => .error .invalidIndex

/-- Execution trace of one `getitem` call: whether the corrective reorder of
the source ran, whether the slice primitive ran, the gather stage's broadcast
shape, gathered dims and gathered-source shape when it ran, whether the final
reorder ran, and how many byte-mask deprecation warnings were emitted. -/
structure Trace where
  corrective : Bool
  sliceRan : Bool
  gatherInfo : Option (List Nat × List Nat × List Nat)
  finalReorder : Bool
  warnings : Nat
deriving DecidableEq, Repr

/-- Modelled from the spec: `torch.ops.aten.alias`: a fresh object with
identical shape, strides, offset and storage. -/
def aliasOp (t : Tensor) : Tensor := { t with oid := t.oid + 1 }

/-- The `needs_reorder` condition of `getitem` (source line 268): the current
rank or axis order differs from the identity ordering. -/
def needsReorder (cur : Tensor) (permute : List (Option Nat)) : Bool :=
  decide (cur.rank ≠ permute.length) ||
  decide ((List.range cur.rank).map some ≠ permute)

/-- The tail of `getitem` (source lines 267-274): the final reorder when rank
or axis order differs from the identity, then the alias step when no primitive
ever executed (`self is self_`). -/
def finishTail (self_ cur : Tensor) (permute : List (Option Nat))
    (corrective sliceRan : Bool) (gInfo : Option (List Nat × List Nat × List Nat))
    (w : Nat) : Except Err (Tensor × Trace) :=
  (if needsReorder cur permute then prim_reorder cur permute else pure cur) >>= fun fin =>
  .ok (if fin.oid = self_.oid then aliasOp fin else fin,
       ⟨corrective, sliceRan, gInfo, needsReorder cur permute, w⟩)

/-- The `permute[i] += ndim` pass of `getitem` (source lines 262-263): every
entry of the permutation plan is shifted by the broadcast rank; a `None`
entry (from a new-axis slot) crashes (`None + int` type error). -/
def shiftPermute (nb : Nat) : List (Option Nat) → Except Err (List (Option Nat))
  | [] => .ok []
  | some p :: rest => do
    let r ← shiftPermute nb rest
    .ok (some (p + nb) :: r)
  | Option.none :: _ => .error .typeError

/-- The primitive-execution stage of `getitem` (source lines 251-274): slice
plan, then gather plan (broadcasting the coordinate tensors, shifting the
permutation entries by the broadcast rank and splicing the broadcast axes at
the insertion point), then `finishTail`. -/
def afterPlan (self_ self : Tensor) (pst : PlanState) (corrective : Bool)
    (w : Nat) : Except Err (Tensor × Trace) :=
  (if pst.slice_dims.isEmpty then pure self
   else prim_slice self pst.slice_dims pst.slices) >>= fun sliced =>
  if pst.gather_dims.isEmpty then
    finishTail self_ sliced pst.permute corrective (!pst.slice_dims.isEmpty) Option.none w
  else
    broadcast_tensors pst.gather_tensors >>= fun bts =>
    let g := prim_gather sliced pst.gather_dims bts
    let nb := (bts.headD default).rank
    shiftPermute nb pst.permute >>= fun permute =>
    let gp := pst.gip.getD 0
    finishTail self_ g
      (permute.take gp ++ (List.range nb).map some ++ permute.drop gp)
      corrective (!pst.slice_dims.isEmpty)
      (some ((bts.headD default).shape, pst.gather_dims, sliced.shape)) w

/-- `__getitem__` (source lines 168-274), the `Resolve` operation of the spec:
wrap raw bools, count specified dimensions (rank check), expand the first
ellipsis / pad with full slices, expand masks, optionally reorder the source,
build the plans, and execute the primitives.  Takes the already
tuple-normalised index expression (the `wrap_tuple` heuristic is Python
object-level duck typing outside the embedded grammar). -/
def wrappedIdx (index_ : List RawIdx) : List RawIdx := index_.map wrap_sequences

/-- The total specified-dimension count of an index expression (source line
173): the sum of `n_specified` over the wrapped elements. -/
def nSpec (index_ : List RawIdx) : Nat := ((wrappedIdx index_).map n_specified).sum

/-- Ellipsis expansion and padding (source lines 179-181): the first ellipsis
(or, absent one, the end of the expression) is replaced by as many full-range
slices as there are unconsumed source dimensions. -/
def paddedIdx (self_ : Tensor) (index_ : List RawIdx) : List RawIdx :=
  let index := wrappedIdx index_
  let ep := index.findIdx (· == RawIdx.ellipsis)
  index.take ep ++ List.replicate (self_.rank - nSpec index_) (RawIdx.slc empty_slice) ++
    index.drop (ep + 1)

def getitem (self_ : Tensor) (index_ : List RawIdx) : Except Err (Tensor × Trace) :=
  if self_.rank < nSpec index_ then .error .rankError
  else
    maskLoop self_ ⟨(List.range self_.rank).map some, 0, []⟩ (paddedIdx self_ index_) >>=
      fun mst =>
    let corrective := decide (nSpec index_ < mst.initial_reorder.length)
    (if corrective then prim_reorder self_ mst.initial_reorder else pure self_) >>= fun self =>
    planLoop planInit mst.new_index >>= fun pst =>
    afterPlan self_ self pst corrective ((wrappedIdx index_).countP isByteTensor)

/-! ### Generic helpers -/

@[simp]
theorem errBind {α β : Type} (e : Err) (f : α → Except Err β) :
    (Except.error e : Except Err α) >>= f = Except.error e := rfl

@[simp]
theorem okBind {α β : Type} (a : α) (f : α → Except Err β) :
    (Except.ok a : Except Err α) >>= f = f a := rfl

theorem bindEqOk {α β : Type} {x : Except Err α} {f : α → Except Err β} {b : β} :
    x >>= f = Except.ok b ↔ ∃ a, x = Except.ok a ∧ f a = Except.ok b := by
  cases x <;> simp

theorem bindEqErr {α β : Type} {x : Except Err α} {f : α → Except Err β} {e : Err} :
    x >>= f = Except.error e ↔
      x = Except.error e ∨ ∃ a, x = Except.ok a ∧ f a = Except.error e := by
  cases x <;> simp

theorem map_getD_self {α : Type} (S : List α) (d : α) :
    (List.range S.length).map (fun j => S.getD j d) = S := by
  induction S with
  | nil => simp
  | cons s S ih =>
    rw [List.length_cons, List.range_succ_eq_map, List.map_cons, List.map_map]
    have hc : (fun j => (s :: S).getD j d) ∘ Nat.succ = fun j => S.getD j d := by
      funext j; simp
    rw [hc, ih]
    simp

/-! ### C8: integer indexing in `prim_slice` -/

theorem resolveSlc_ok_of_step (n : Nat) (s : Slc)
    (h : ∀ v, s.step = some v → 0 < v) : ∃ x, resolveSlc n s = Except.ok x := by
  unfold resolveSlc
  have hstep : ¬ s.step.getD 1 ≤ 0 := by
    cases hs : s.step with
    | none => simp
    | some v => have := h v hs; simp [hs]; omega
  simp [hstep]

theorem applySlices_ok (ns : List Nat) (sts : List Int) (args : List Slc)
    (h : ∀ s ∈ args, ∀ v, s.step = some v → 0 < v) :
    ∃ x, applySlices ns sts args = Except.ok x := by
  induction ns generalizing sts args with
  | nil => exact ⟨_, rfl⟩
  | cons n ns ih =>
    cases sts with
    | nil => exact ⟨_, rfl⟩
    | cons st sts =>
      cases args with
      | nil => exact ⟨_, rfl⟩
      | cons s ss =>
        obtain ⟨⟨st1, len, stp⟩, h1⟩ := resolveSlc_ok_of_step n s (h s (by simp))
        obtain ⟨⟨shp, strd, off⟩, h2⟩ := ih sts ss (fun x hx => h x (by simp [hx]))
        exact ⟨(len :: shp, st * stp :: strd, st1 * st + off),
          by simp [applySlices, h1, h2]⟩

theorem base_getitem_slices_ok (t : Tensor) (args : List Slc)
    (h : ∀ s ∈ args, ∀ v, s.step = some v → 0 < v) :
    ∃ r, base_getitem_slices t args = Except.ok r ∧ r.storage = t.storage := by
  obtain ⟨⟨shp, strd, off⟩, hx⟩ := applySlices_ok t.shape t.stride args h
  refine ⟨{ shape := shp, stride := strd, offset := t.offset + off,
            storage := t.storage, dtype := t.dtype, oid := t.oid + 1 }, ?_, rfl⟩
  simp [base_getitem_slices, hx]

theorem buildSliceArgs_int_one (t : Tensor) (d : Nat) (v : Int) (args : List Slc) :
    buildSliceArgs t [(d, SliceOrInt.i v)] args =
      if wrapIdx v (t.shape.getD d 0) < 0 ∨
          ((t.shape.getD d 0 : Nat) : Int) ≤ wrapIdx v (t.shape.getD d 0)
      then Except.error Err.outOfBounds
      else Except.ok (args.set d ⟨some (wrapIdx v (t.shape.getD d 0)),
                                  some (wrapIdx v (t.shape.getD d 0) + 1), Option.none⟩) := by
  simp only [buildSliceArgs, wrapIdx]

theorem prim_slice_int_eq (t : Tensor) (d : Nat) (v : Int) :
    prim_slice t [d] [SliceOrInt.i v] =
      if wrapIdx v (t.shape.getD d 0) < 0 ∨
          ((t.shape.getD d 0 : Nat) : Int) ≤ wrapIdx v (t.shape.getD d 0)
      then Except.error Err.outOfBounds
      else base_getitem_slices t ((List.replicate t.rank empty_slice).set d
             ⟨some (wrapIdx v (t.shape.getD d 0)),
              some (wrapIdx v (t.shape.getD d 0) + 1), Option.none⟩) := by
  show buildSliceArgs t ([d].zip [SliceOrInt.i v]) (List.replicate t.rank empty_slice) >>=
      base_getitem_slices t = _
  rw [List.zip_cons_cons, List.zip_nil_right, buildSliceArgs_int_one]
  split
  · rfl
  · rw [okBind]

/-- C8: for an integer index `v` applied by the Slice primitive to dimension
`d` of size `size`, `v` is wrapped by adding `size` if negative, and the
operation fails with the out-of-bounds error exactly when the wrapped value
lies outside `[0, size)`; otherwise it succeeds with a view. -/
theorem prim_slice_int_bounds (t : Tensor) (d : Nat) (v : Int) (_hd : d < t.rank) :
    (prim_slice t [d] [SliceOrInt.i v] = Except.error Err.outOfBounds ↔
      (wrapIdx v (t.shape.getD d 0) < 0 ∨ ((t.shape.getD d 0 : Nat) : Int) ≤ wrapIdx v (t.shape.getD d 0)))
    ∧ (¬ (wrapIdx v (t.shape.getD d 0) < 0 ∨ ((t.shape.getD d 0 : Nat) : Int) ≤ wrapIdx v (t.shape.getD d 0)) →
        ∃ r, prim_slice t [d] [SliceOrInt.i v] = Except.ok r ∧ r.storage = t.storage) := by
  have hargs : ∀ s ∈ (List.replicate t.rank empty_slice).set d
      (⟨some (wrapIdx v (t.shape.getD d 0)), some (wrapIdx v (t.shape.getD d 0) + 1), Option.none⟩ : Slc),
      ∀ w, s.step = some w → 0 < w := by
    intro s hs w hw
    rcases List.mem_or_eq_of_mem_set hs with h | h
    · rw [List.eq_of_mem_replicate h] at hw; simp [empty_slice] at hw
    · rw [h] at hw; simp at hw
  rw [prim_slice_int_eq]
  constructor
  · constructor
    · intro herr
      by_contra hcond
      rw [if_neg hcond] at herr
      obtain ⟨r, hr, _⟩ := base_getitem_slices_ok t _ hargs
      rw [hr] at herr
      exact Except.noConfusion herr
    · intro hcond
      rw [if_pos hcond]
  · intro hcond
    rw [if_neg hcond]
    exact base_getitem_slices_ok t _ hargs

/-! ### C9: `prim_reorder` -/

theorem reorderPick_ok (t : Tensor) (order : List (Option Nat))
    (h : ∀ o ∈ order, ∀ j, o = some j → j < t.rank) :
    reorderPick t order = Except.ok (order.map (fun o => match o with
      | some j => (t.shape.getD j 0, t.stride.getD j 0)
      | Option.none => (1, 0))) := by
  induction order with
  | nil => rfl
  | cons o rest ih =>
    have hrest := ih (fun x hx j hj => h x (by simp [hx]) j hj)
    cases o with
    | none => simp [reorderPick, hrest]
    | some j =>
      have hj : j < t.rank := h (some j) (by simp) j rfl
      simp [reorderPick, hj, hrest]

/-- C9: `prim_reorder` fails with the dangling-axis error exactly when some
source axis absent from `order` has size other than 1; on success each `None`
entry contributes a size-1, stride-0 axis, each index entry its axis's size
and stride, and the result is a pure view of the same storage (never a copy).
In particular source shape `(2,1,5,3)` with order `[0,3,2,None]` yields shape
`(2,3,5,1)` (the concrete witness). -/
theorem prim_reorder_spec (t : Tensor) (order : List (Option Nat))
    (h : ∀ o ∈ order, ∀ j, o = some j → j < t.rank) :
    (prim_reorder t order = Except.error Err.danglingAxis ↔
      ∃ i, i < t.rank ∧ (some i) ∉ order ∧ t.shape.getD i 0 ≠ 1)
    ∧ (∀ r, prim_reorder t order = Except.ok r →
        r.shape = order.map (fun o => match o with
          | some j => t.shape.getD j 0
          | Option.none => 1)
        ∧ r.stride = order.map (fun o => match o with
          | some j => t.stride.getD j 0
          | Option.none => 0)
        ∧ r.storage = t.storage ∧ r.offset = t.offset ∧ r.dtype = t.dtype) := by
  have hbool : ∀ i : Nat, ((order.contains (some i) || t.shape.getD i 0 == 1) = true) ↔
      (some i ∈ order ∨ t.shape.getD i 0 = 1) := by
    intro i
    simp [Bool.or_eq_true, List.elem_eq_mem, beq_iff_eq, decide_eq_true_eq]
  have hcond : ((List.range t.rank).all
      (fun i => order.contains (some i) || t.shape.getD i 0 == 1) = true) ↔
      ∀ i, i < t.rank → (some i ∈ order ∨ t.shape.getD i 0 = 1) := by
    rw [List.all_eq_true]
    constructor
    · intro hall i hi
      exact (hbool i).mp (hall i (List.mem_range.mpr hi))
    · intro hall i hi
      exact (hbool i).mpr (hall i (List.mem_range.mp hi))
  constructor
  · constructor
    · intro herr
      by_contra hc
      have hall : ((List.range t.rank).all
          (fun i => order.contains (some i) || t.shape.getD i 0 == 1) = true) := by
        rw [hcond]
        intro i hi
        by_contra hx
        push_neg at hx
        exact hc ⟨i, hi, hx.1, hx.2⟩
      rw [prim_reorder, if_pos hall, reorderPick_ok t order h, okBind] at herr
      exact Except.noConfusion herr
    · rintro ⟨i, hi, hnm, hne⟩
      have hneg : ¬ ((List.range t.rank).all
          (fun i => order.contains (some i) || t.shape.getD i 0 == 1) = true) := by
        rw [hcond]
        push_neg
        exact ⟨i, hi, hnm, hne⟩
      rw [prim_reorder, if_neg hneg]
  · intro r hr
    rw [prim_reorder] at hr
    by_cases hc : ((List.range t.rank).all
        (fun i => order.contains (some i) || t.shape.getD i 0 == 1)) = true
    · rw [if_pos hc, reorderPick_ok t order h, okBind] at hr
      injection hr with hr
      subst hr
      refine ⟨?_, ?_, rfl, rfl, rfl⟩
      · show ((order.map _).map _) = _
        rw [List.map_map]
        exact List.map_congr_left (fun o _ => by cases o <;> rfl)
      · show ((order.map _).map _) = _
        rw [List.map_map]
        exact List.map_congr_left (fun o _ => by cases o <;> rfl)
    · rw [if_neg hc] at hr
      exact Except.noConfusion hr

/-! ### C2: `prim_gather` result shape -/

theorem removeAt_exact {α : Type} (A B : List α) (a : α) :
    removeAt (A ++ a :: B) A.length = A ++ B := by
  have h : A ++ a :: B = (A ++ [a]) ++ B := by simp
  rw [removeAt, List.take_left' rfl, h, List.drop_left' (by simp)]

theorem insertAt_exact {α : Type} (A B : List α) (a : α) :
    insertAt (A ++ B) A.length a = A ++ a :: B := by
  rw [insertAt, List.take_left' rfl, List.drop_left' rfl]

theorem getD_exact {α : Type} (A B : List α) (a d : α) :
    (A ++ a :: B).getD A.length d = a := by
  rw [List.getD_append_right _ _ _ _ (Nat.le_refl _), Nat.sub_self]
  rfl

theorem movedim_block (r : Tensor) (d j : Nat) (Bt P : List Nat) (Bt' P' : List Int)
    (b : Nat) (b' : Int) (rest : List Nat) (rest' : List Int)
    (hBt : Bt.length = j) (hBt' : Bt'.length = j)
    (hP : P.length = d) (hP' : P'.length = d)
    (hs : r.shape = Bt ++ P ++ b :: rest)
    (hst : r.stride = Bt' ++ P' ++ b' :: rest') :
    (movedim r (d + j) j).shape = (Bt ++ [b]) ++ P ++ rest
    ∧ (movedim r (d + j) j).stride = (Bt' ++ [b']) ++ P' ++ rest'
    ∧ (movedim r (d + j) j).storage = r.storage
    ∧ (movedim r (d + j) j).offset = r.offset
    ∧ (movedim r (d + j) j).dtype = r.dtype := by
  have hlenBP : (Bt ++ P).length = d + j := by
    simp [hBt, hP, Nat.add_comm]
  have hlenBP' : (Bt' ++ P').length = d + j := by
    simp [hBt', hP', Nat.add_comm]
  have hshape : r.shape = (Bt ++ P) ++ b :: rest := by rw [hs, List.append_assoc]
  have hstride : r.stride = (Bt' ++ P') ++ b' :: rest' := by rw [hst, List.append_assoc]
  have hget : r.shape.getD (d + j) 0 = b := by
    rw [hshape, ← hlenBP, getD_exact]
  have hget' : r.stride.getD (d + j) 0 = b' := by
    rw [hstride, ← hlenBP', getD_exact]
  have hrm : removeAt r.shape (d + j) = Bt ++ (P ++ rest) := by
    rw [hshape, ← hlenBP, removeAt_exact, List.append_assoc]
  have hrm' : removeAt r.stride (d + j) = Bt' ++ (P' ++ rest') := by
    rw [hstride, ← hlenBP', removeAt_exact, List.append_assoc]
  refine ⟨?_, ?_, rfl, rfl, rfl⟩
  · show insertAt (removeAt r.shape (d + j)) j (r.shape.getD (d + j) 0) = _
    rw [hget, hrm, ← hBt, insertAt_exact]
    simp
  · show insertAt (removeAt r.stride (d + j)) j (r.stride.getD (d + j) 0) = _
    rw [hget', hrm', ← hBt', insertAt_exact]
    simp

theorem movedim_fold (m : Nat) : ∀ (j d : Nat) (r : Tensor) (Bt Bd P : List Nat)
    (Bt' Bd' P' : List Int) (rest : List Nat) (rest' : List Int),
    Bt.length = j → Bt'.length = j → Bd.length = m → Bd'.length = m →
    P.length = d → P'.length = d →
    r.shape = Bt ++ P ++ Bd ++ rest → r.stride = Bt' ++ P' ++ Bd' ++ rest' →
    ((List.range' j m).foldl (fun r i => movedim r (d + i) i) r).shape
        = Bt ++ Bd ++ P ++ rest
    ∧ ((List.range' j m).foldl (fun r i => movedim r (d + i) i) r).stride
        = Bt' ++ Bd' ++ P' ++ rest'
    ∧ ((List.range' j m).foldl (fun r i => movedim r (d + i) i) r).storage = r.storage
    ∧ ((List.range' j m).foldl (fun r i => movedim r (d + i) i) r).offset = r.offset
    ∧ ((List.range' j m).foldl (fun r i => movedim r (d + i) i) r).dtype = r.dtype := by
  induction m with
  | zero =>
    intro j d r Bt Bd P Bt' Bd' P' rest rest' _ _ hBd hBd' _ _ hs hst
    obtain rfl : Bd = [] := List.length_eq_zero.mp hBd
    obtain rfl : Bd' = [] := List.length_eq_zero.mp hBd'
    refine ⟨?_, ?_, rfl, rfl, rfl⟩
    · rw [List.range'_zero, List.foldl_nil, hs]; simp
    · rw [List.range'_zero, List.foldl_nil, hst]; simp
  | succ m ih =>
    intro j d r Bt Bd P Bt' Bd' P' rest rest' hBt hBt' hBd hBd' hP hP' hs hst
    cases Bd with
    | nil => simp at hBd
    | cons b Bd₂ =>
      cases Bd' with
      | nil => simp at hBd'
      | cons b' Bd₂' =>
        rw [List.range'_succ, List.foldl_cons]
        have hs₂ : r.shape = Bt ++ P ++ b :: (Bd₂ ++ rest) := by
          rw [hs]; simp
        have hst₂ : r.stride = Bt' ++ P' ++ b' :: (Bd₂' ++ rest') := by
          rw [hst]; simp
        obtain ⟨m1, m2, m3, m4, m5⟩ :=
          movedim_block r d j Bt P Bt' P' b b' (Bd₂ ++ rest) (Bd₂' ++ rest')
            hBt hBt' hP hP' hs₂ hst₂
        obtain ⟨k1, k2, k3, k4, k5⟩ :=
          ih (j + 1) d (movedim r (d + j) j) (Bt ++ [b]) Bd₂ P (Bt' ++ [b']) Bd₂' P'
            rest rest'
            (by simp [hBt]) (by simp [hBt'])
            (by simpa using hBd) (by simpa using hBd') hP hP'
            (by rw [m1]; simp)
            (by rw [m2]; simp)
        refine ⟨?_, ?_, ?_, ?_, ?_⟩
        · rw [k1]; simp
        · rw [k2]; simp
        · rw [k3, m3]
        · rw [k4, m4]
        · rw [k5, m5]

theorem contigStride_length (S : List Nat) : (contigStride S).length = S.length := by
  induction S with
  | nil => rfl
  | cons s S ih => simp [contigStride, ih]

theorem allIdx_length (S : List Nat) : (allIdx S).length = S.prod := by
  induction S with
  | nil => rfl
  | cons s S ih =>
    rw [allIdx, List.length_flatMap]
    have : ∀ i : Nat, ((allIdx S).map (i :: ·)).length = S.prod := fun i => by
      rw [List.length_map, ih]
    calc ((List.range s).map (fun i => ((allIdx S).map (i :: ·)).length)).sum
        = ((List.range s).map (fun _ => S.prod)).sum := by
          exact congrArg List.sum (List.map_congr_left (fun i _ => this i))
      _ = s * S.prod := by
          rw [List.map_const', List.sum_replicate, List.length_range, smul_eq_mul]
      _ = (s :: S).prod := by rw [List.prod_cons]

theorem range_map_blk (S : List Nat) : ∀ (i k : Nat), i + k ≤ S.length →
    (List.range S.length).map (fun j => if i ≤ j ∧ j < i + k then 1 else S.getD j 0)
      = S.take i ++ List.replicate k 1 ++ S.drop (i + k) := by
  induction S with
  | nil =>
    intro i k h
    simp only [List.length_nil, Nat.le_zero] at h
    obtain rfl : i = 0 := by omega
    obtain rfl : k = 0 := by omega
    simp
  | cons s S ih =>
    intro i k h
    cases i with
    | zero =>
      cases k with
      | zero =>
        have hc : ∀ j ∈ List.range (s :: S).length,
            (if 0 ≤ j ∧ j < 0 + 0 then 1 else (s :: S).getD j 0) = (s :: S).getD j 0 := by
          intro j _
          rw [if_neg (by omega)]
        rw [List.map_congr_left hc, map_getD_self]
        simp
      | succ k' =>
        rw [List.length_cons, List.range_succ_eq_map, List.map_cons, List.map_map]
        have h0 : (if 0 ≤ 0 ∧ 0 < 0 + (k' + 1) then 1 else (s :: S).getD 0 0) = 1 := by
          rw [if_pos (by omega)]
        have hcomp : ∀ j ∈ List.range S.length,
            ((fun j => if 0 ≤ j ∧ j < 0 + (k' + 1) then 1 else (s :: S).getD j 0) ∘ Nat.succ) j
              = (fun j => if 0 ≤ j ∧ j < 0 + k' then 1 else S.getD j 0) j := by
          intro j _
          simp only [Function.comp_apply, List.getD_cons_succ]
          exact if_congr (by omega) rfl rfl
        rw [h0, List.map_congr_left hcomp, ih 0 k' (by simp at h ⊢; omega)]
        simp [List.replicate_succ]
    | succ i' =>
      rw [List.length_cons, List.range_succ_eq_map, List.map_cons, List.map_map]
      have h0 : (if i' + 1 ≤ 0 ∧ 0 < i' + 1 + k then 1 else (s :: S).getD 0 0) = s := by
        rw [if_neg (by omega)]
        rfl
      have hcomp : ∀ j ∈ List.range S.length,
          ((fun j => if i' + 1 ≤ j ∧ j < i' + 1 + k then 1 else (s :: S).getD j 0) ∘ Nat.succ) j
            = (fun j => if i' ≤ j ∧ j < i' + k then 1 else S.getD j 0) j := by
        intro j _
        simp only [Function.comp_apply, List.getD_cons_succ]
        exact if_congr (by omega) rfl rfl
      rw [h0, List.map_congr_left hcomp, ih i' k (by simp at h ⊢; omega)]
      have hdrop : (s :: S).drop (i' + 1 + k) = S.drop (i' + k) := by
        rw [Nat.add_right_comm, List.drop_succ_cons]
      rw [List.take_succ_cons, hdrop]
      simp [List.append_assoc]

theorem range_map_single (S : List Nat) (d : Nat) (hd : d < S.length) :
    (List.range S.length).map (fun j => if j ∈ [d] then 1 else S.getD j 0)
      = S.take d ++ 1 :: S.drop (d + 1) := by
  have hc : ∀ j ∈ List.range S.length,
      (if j ∈ [d] then 1 else S.getD j 0) = (if d ≤ j ∧ j < d + 1 then 1 else S.getD j 0) := by
    intro j _
    exact if_congr (by simp; omega) rfl rfl
  rw [List.map_congr_left hc, range_map_blk S d 1 (by omega)]
  simp

/-- Core shape/storage computation of `prim_gather` on coordinate arrays of a
common shape `B` (used both for the gather claim and for the mask pipeline). -/
theorem gather_shape_core (t : Tensor) (dims : List Nat) (idxs : List Tensor) (B : List Nat)
    (hdims : dims ≠ []) (hlt : ∀ d ∈ dims, d < t.rank)
    (hlen : idxs.length = dims.length)
    (hB : ∀ x ∈ idxs, x.shape = B) :
    (prim_gather t dims idxs).shape
        = B ++ (List.range t.rank).map (fun i => if i ∈ dims then 1 else t.shape.getD i 0)
    ∧ (prim_gather t dims idxs).storage.id = t.storage.id + 1 := by
  have hne : idxs ≠ [] := by
    intro hh
    rw [hh] at hlen
    exact hdims (List.length_eq_zero.mp hlen.symm)
  have hhead : (idxs.headD default).shape = B := by
    cases idxs with
    | nil => exact absurd rfl hne
    | cons c cs => exact hB c (by simp)
  by_cases h1 : dims.length = 1
  · obtain ⟨d, rfl⟩ := List.length_eq_one.mp h1
    obtain ⟨c, rfl⟩ : ∃ c, idxs = [c] := by
      rw [h1] at hlen
      obtain ⟨c, hc⟩ := List.length_eq_one.mp hlen
      exact ⟨c, hc⟩
    have hd : d < t.rank := hlt d (by simp)
    have hcB : c.shape = B := hB c (by simp)
    have hheadD : ([c].headD default) = c := rfl
    have hbase : base_getitem_adv t [d] [c]
        = { shape := gatherShape1 t d B, stride := contigStride (gatherShape1 t d B),
            offset := 0,
            storage := ⟨t.storage.id + 1,
              (allIdx (gatherShape1 t d B)).map (advVal1 t d c B)⟩,
            dtype := t.dtype, oid := t.oid + 1 } := by
      rw [base_getitem_adv]
      simp [hheadD, hcB]
    have hrank : c.rank = B.length := by rw [Tensor.rank, hcB]
    have hd2 : d < t.shape.length := hd
    have hpg : prim_gather t [d] [c]
        = (List.range' 0 B.length).foldl (fun r i => movedim r (d + i) i)
            (base_getitem_adv t [d] [c]) := by
      simp [prim_gather, hrank, List.range_eq_range']
    set S' := contigStride (gatherShape1 t d B) with hS'
    have hlenS' : S'.length = d + B.length + 1 + (t.shape.drop (d + 1)).length := by
      rw [hS', contigStride_length, gatherShape1]
      simp only [List.length_append, List.length_cons, List.length_take]
      omega
    obtain ⟨f1, _, f3, _, _⟩ := movedim_fold B.length 0 d
      (base_getitem_adv t [d] [c]) [] B (t.shape.take d)
      [] ((S'.drop d).take B.length) (S'.take d)
      (1 :: t.shape.drop (d + 1)) ((S'.drop d).drop B.length)
      rfl rfl rfl
      (by rw [List.length_take, List.length_drop]; omega)
      (by rw [List.length_take]; omega)
      (by rw [List.length_take]; omega)
      (by rw [hbase]
          show gatherShape1 t d B = _
          rw [gatherShape1, List.nil_append])
      (by rw [hbase]
          show S' = _
          rw [List.nil_append, List.append_assoc,
            List.take_append_drop B.length (S'.drop d), List.take_append_drop d S'])
    rw [hpg]
    constructor
    · rw [f1, List.nil_append, Tensor.rank, range_map_single t.shape d hd2,
        List.append_assoc]
    · rw [f3, hbase]
  · have hne1 : ¬ idxs.length = 1 := by rw [hlen]; exact h1
    rw [prim_gather, if_neg hne1, base_getitem_adv]
    simp only [if_neg h1]
    constructor
    · show gatherShapeN t dims (idxs.headD default).shape = _
      rw [gatherShapeN, hhead]
    · trivial

/-- C2: for a non-empty gather over coordinate arrays of common shape `B`,
the result shape is `B` followed by, per source dimension, 1 when gathered
and the source size otherwise (the broadcast block is contiguous at the
front), and the result is backed by newly allocated storage. -/
theorem prim_gather_shape (t : Tensor) (dims : List Nat) (idxs : List Tensor) (B : List Nat)
    (hdims : dims ≠ []) (hlt : ∀ d ∈ dims, d < t.rank)
    (hlen : idxs.length = dims.length)
    (hB : ∀ x ∈ idxs, x.shape = B) :
    (prim_gather t dims idxs).shape
        = B ++ (List.range t.rank).map (fun i => if i ∈ dims then 1 else t.shape.getD i 0)
    ∧ (prim_gather t dims idxs).storage.id = t.storage.id + 1 :=
  gather_shape_core t dims idxs B hdims hlt hlen hB

/-! ### C3: the advanced-index insertion point -/

/-- The `seen_output_dims` value at each advanced (tensor) slot of a canonical
slot sequence, in order: `None` and slice slots advance the counter, integer
and tensor slots do not (mirroring the plan-building loop). -/
def advSeens : List RawIdx → Nat → List Nat
  | [], _ => []
  | RawIdx.noneIdx :: rest, s => advSeens rest (s + 1)
  | RawIdx.slc _ :: rest, s => advSeens rest (s + 1)
  | RawIdx.tensor _ :: rest, s => s :: advSeens rest s
  | _ :: rest, s => advSeens rest s

theorem advSeens_ne_nil (slots : List RawIdx) (a : Tensor)
    (ha : RawIdx.tensor a ∈ slots) : ∀ s, advSeens slots s ≠ [] := by
  induction slots with
  | nil => cases ha
  | cons x rest ih =>
    intro s
    rcases List.mem_cons.mp ha with h | h
    · rw [← h]
      simp [advSeens]
    · cases x <;> simp only [advSeens] <;> first | exact ih h _ | simp

theorem planLoop_gip_stays0 (l : List RawIdx) : ∀ (st pst : PlanState),
    st.gip = some 0 → planLoop st l = Except.ok pst → pst.gip = some 0 := by
  induction l with
  | nil =>
    intro st pst hg hok
    rw [planLoop] at hok
    injection hok with hok
    subst hok
    exact hg
  | cons x rest ih =>
    intro st pst hg hok
    cases x with
    | noneIdx =>
      rw [planLoop] at hok
      exact ih _ pst (by exact hg) hok
    | slc s =>
      rw [planLoop] at hok
      by_cases he : s = empty_slice
      · rw [if_pos he] at hok
        exact ih _ pst (by exact hg) hok
      · rw [if_neg he] at hok
        exact ih _ pst (by exact hg) hok
    | intIdx v =>
      rw [planLoop] at hok
      exact ih _ pst (by exact hg) hok
    | boolLit b =>
      rw [planLoop] at hok
      exact ih _ pst (by exact hg) hok
    | ellipsis =>
      rw [planLoop] at hok
      exact Except.noConfusion hok
    | tensor a =>
      rw [planLoop] at hok
      refine ih _ pst ?_ hok
      show gipUpd st.gip st.seen = some 0
      rw [hg, gipUpd]
      exact ite_self _

theorem planLoop_gip_keep (l : List RawIdx) : ∀ (st pst : PlanState) (g : Nat),
    st.gip = some g → (∀ x ∈ advSeens l st.seen, x = g) →
    planLoop st l = Except.ok pst → pst.gip = some g := by
  induction l with
  | nil =>
    intro st pst g hg _ hok
    rw [planLoop] at hok
    injection hok with hok
    subst hok
    exact hg
  | cons x rest ih =>
    intro st pst g hg hall hok
    cases x with
    | noneIdx =>
      rw [planLoop] at hok
      exact ih _ pst g (by exact hg) (by simpa [advSeens] using hall) hok
    | slc s =>
      rw [planLoop] at hok
      by_cases he : s = empty_slice
      · rw [if_pos he] at hok
        exact ih _ pst g (by exact hg) (by simpa [advSeens] using hall) hok
      · rw [if_neg he] at hok
        exact ih _ pst g (by exact hg) (by simpa [advSeens] using hall) hok
    | intIdx v =>
      rw [planLoop] at hok
      exact ih _ pst g (by exact hg) (by simpa [advSeens] using hall) hok
    | boolLit b =>
      rw [planLoop] at hok
      exact ih _ pst g (by exact hg) (by simpa [advSeens] using hall) hok
    | ellipsis =>
      rw [planLoop] at hok
      exact Except.noConfusion hok
    | tensor a =>
      rw [planLoop] at hok
      have hhead : st.seen = g := hall st.seen (by simp [advSeens])
      refine ih _ pst g ?_ (by simpa [advSeens] using fun x hx => hall x (by simp [advSeens, hx])) hok
      show gipUpd st.gip st.seen = some g
      rw [hg, gipUpd, if_neg (by rw [hhead]; exact fun hc => hc rfl)]

theorem planLoop_gip_forced0 (l : List RawIdx) : ∀ (st pst : PlanState) (g : Nat),
    st.gip = some g → (∃ x ∈ advSeens l st.seen, x ≠ g) →
    planLoop st l = Except.ok pst → pst.gip = some 0 := by
  induction l with
  | nil =>
    intro st pst g _ hex _
    rw [advSeens] at hex
    simp at hex
  | cons x rest ih =>
    intro st pst g hg hex hok
    cases x with
    | noneIdx =>
      rw [planLoop] at hok
      exact ih _ pst g (by exact hg) (by simpa [advSeens] using hex) hok
    | slc s =>
      rw [planLoop] at hok
      by_cases he : s = empty_slice
      · rw [if_pos he] at hok
        exact ih _ pst g (by exact hg) (by simpa [advSeens] using hex) hok
      · rw [if_neg he] at hok
        exact ih _ pst g (by exact hg) (by simpa [advSeens] using hex) hok
    | intIdx v =>
      rw [planLoop] at hok
      exact ih _ pst g (by exact hg) (by simpa [advSeens] using hex) hok
    | boolLit b =>
      rw [planLoop] at hok
      exact ih _ pst g (by exact hg) (by simpa [advSeens] using hex) hok
    | ellipsis =>
      rw [planLoop] at hok
      exact Except.noConfusion hok
    | tensor a =>
      rw [planLoop] at hok
      by_cases hsg : st.seen = g
      · have hrest : ∃ x ∈ advSeens rest st.seen, x ≠ g := by
          obtain ⟨x, hx, hxg⟩ := hex
          rw [advSeens] at hx
          rcases List.mem_cons.mp hx with h | h
          · exact absurd (h.trans hsg) hxg
          · exact ⟨x, h, hxg⟩
        refine ih _ pst g ?_ (by exact hrest) hok
        show gipUpd st.gip st.seen = some g
        rw [hg, gipUpd, if_neg (fun hc => hc hsg.symm)]
      · refine planLoop_gip_stays0 rest _ pst ?_ hok
        show gipUpd st.gip st.seen = some 0
        rw [hg, gipUpd, if_pos (fun hc => hsg (hc.symm))]

theorem planLoop_gip_start (l : List RawIdx) : ∀ (st pst : PlanState) (f : Nat)
    (frest : List Nat),
    st.gip = Option.none → advSeens l st.seen = f :: frest →
    planLoop st l = Except.ok pst →
    ((∀ x ∈ frest, x = f) → pst.gip = some f)
    ∧ ((∃ x ∈ frest, x ≠ f) → pst.gip = some 0) := by
  induction l with
  | nil =>
    intro st pst f frest _ hadv _
    rw [advSeens] at hadv
    exact List.noConfusion hadv
  | cons x rest ih =>
    intro st pst f frest hg hadv hok
    cases x with
    | noneIdx =>
      rw [planLoop] at hok
      rw [advSeens] at hadv
      exact ih _ pst f frest (by exact hg) hadv hok
    | slc s =>
      rw [planLoop] at hok
      rw [advSeens] at hadv
      by_cases he : s = empty_slice
      · rw [if_pos he] at hok
        exact ih _ pst f frest (by exact hg) hadv hok
      · rw [if_neg he] at hok
        exact ih _ pst f frest (by exact hg) hadv hok
    | intIdx v =>
      rw [planLoop] at hok
      simp only [advSeens] at hadv
      exact ih _ pst f frest (by exact hg) (by exact hadv) hok
    | boolLit b =>
      rw [planLoop] at hok
      simp only [advSeens] at hadv
      exact ih _ pst f frest (by exact hg) (by exact hadv) hok
    | ellipsis =>
      rw [planLoop] at hok
      exact Except.noConfusion hok
    | tensor a =>
      rw [planLoop] at hok
      rw [advSeens] at hadv
      injection hadv with hf hfrest
      have hg' : gipUpd st.gip st.seen = some f := by
        rw [hg, gipUpd, hf]
      constructor
      · intro hall
        refine planLoop_gip_keep rest _ pst f (by exact hg') ?_ hok
        rw [hfrest]
        exact hall
      · intro hex
        refine planLoop_gip_forced0 rest _ pst f (by exact hg') ?_ hok
        rw [hfrest]
        exact hex

/-- C3: for a canonical slot sequence with at least one advanced (tensor)
slot, the plan-building loop fixes the gather insertion point at the `seen`
value of the first advanced slot; if every later advanced slot is reached at
that same `seen` value the insertion point stays there, and if some later
advanced slot is reached at a different `seen` value the insertion point is
forced to 0 (the combined advanced axes then go to the front). -/
theorem planLoop_insert_point (slots : List RawIdx) (pst : PlanState) (a : Tensor)
    (ha : RawIdx.tensor a ∈ slots)
    (hok : planLoop planInit slots = Except.ok pst) :
    ((∀ x ∈ (advSeens slots 0).tail, x = (advSeens slots 0).headD 0) →
        pst.gip = some ((advSeens slots 0).headD 0))
    ∧ ((∃ x ∈ (advSeens slots 0).tail, x ≠ (advSeens slots 0).headD 0) →
        pst.gip = some 0) := by
  have hne := advSeens_ne_nil slots a ha 0
  cases hcase : advSeens slots 0 with
  | nil => exact absurd hcase hne
  | cons f frest =>
    have h := planLoop_gip_start slots planInit pst f frest rfl hcase hok
    simpa using h

/-! ### Inversion and error-kind lemmas for the pipeline -/

theorem resolveSlc_err (n : Nat) (s : Slc) (e : Err)
    (h : resolveSlc n s = Except.error e) : e = Err.invalidStep := by
  rw [resolveSlc] at h
  split at h
  · injection h with h
    exact h.symm
  · exact Except.noConfusion h

theorem applySlices_err : ∀ (ns : List Nat) (sts : List Int) (args : List Slc) (e : Err),
    applySlices ns sts args = Except.error e → e = Err.invalidStep := by
  intro ns
  induction ns with
  | nil => intro sts args e h; exact Except.noConfusion h
  | cons n ns ih =>
    intro sts args e h
    cases sts with
    | nil => exact Except.noConfusion h
    | cons st sts =>
      cases args with
      | nil => exact Except.noConfusion h
      | cons s ss =>
        rw [applySlices] at h
        rcases bindEqErr.mp h with h1 | ⟨⟨a1, a2, a3⟩, _, h2⟩
        · exact resolveSlc_err n s e h1
        · rcases bindEqErr.mp h2 with h3 | ⟨⟨b1, b2, b3⟩, _, h4⟩
          · exact ih sts ss e h3
          · exact Except.noConfusion h4

theorem base_getitem_slices_err (t : Tensor) (args : List Slc) (e : Err)
    (h : base_getitem_slices t args = Except.error e) : e = Err.invalidStep := by
  rw [base_getitem_slices] at h
  rcases bindEqErr.mp h with h1 | ⟨⟨a1, a2, a3⟩, _, h2⟩
  · exact applySlices_err _ _ _ e h1
  · exact Except.noConfusion h2

theorem buildSliceArgs_err (t : Tensor) : ∀ (l : List (Nat × SliceOrInt)) (args : List Slc)
    (e : Err), buildSliceArgs t l args = Except.error e → e = Err.outOfBounds := by
  intro l
  induction l with
  | nil => intro args e h; exact Except.noConfusion h
  | cons p rest ih =>
    intro args e h
    obtain ⟨d, sl⟩ := p
    cases sl with
    | s s => exact ih _ e h
    | i v =>
      rw [buildSliceArgs] at h
      split at h <;> split at h <;>
        first
          | (injection h with h; exact h.symm)
          | exact ih _ e h

theorem prim_slice_err (t : Tensor) (dims : List Nat) (slcs : List SliceOrInt) (e : Err)
    (h : prim_slice t dims slcs = Except.error e) :
    e = Err.outOfBounds ∨ e = Err.invalidStep := by
  rw [prim_slice] at h
  rcases bindEqErr.mp h with h1 | ⟨args, _, h2⟩
  · exact Or.inl (buildSliceArgs_err t _ _ e h1)
  · exact Or.inr (base_getitem_slices_err t args e h2)

theorem reorderPick_err (t : Tensor) : ∀ (order : List (Option Nat)) (e : Err),
    reorderPick t order = Except.error e → e = Err.orderOutOfRange := by
  intro order
  induction order with
  | nil => intro e h; exact Except.noConfusion h
  | cons o rest ih =>
    intro e h
    cases o with
    | none =>
      rw [reorderPick] at h
      rcases bindEqErr.mp h with h1 | ⟨a, _, h2⟩
      · exact ih e h1
      · exact Except.noConfusion h2
    | some j =>
      rw [reorderPick] at h
      split at h
      · rcases bindEqErr.mp h with h1 | ⟨a, _, h2⟩
        · exact ih e h1
        · exact Except.noConfusion h2
      · injection h with h
        exact h.symm

theorem prim_reorder_err (t : Tensor) (order : List (Option Nat)) (e : Err)
    (h : prim_reorder t order = Except.error e) :
    e = Err.danglingAxis ∨ e = Err.orderOutOfRange := by
  rw [prim_reorder] at h
  split at h
  · rcases bindEqErr.mp h with h1 | ⟨a, _, h2⟩
    · exact Or.inr (reorderPick_err t order e h1)
    · exact Except.noConfusion h2
  · injection h with h
    exact Or.inl h.symm

theorem broadcast_tensors_err (ts : List Tensor) (e : Err)
    (h : broadcast_tensors ts = Except.error e) : e = Err.broadcastError := by
  rw [broadcast_tensors] at h
  split at h
  · exact Except.noConfusion h
  · injection h with h
    exact h.symm

theorem maskLoop_err (self : Tensor) : ∀ (l : List RawIdx) (st : MaskState) (e : Err),
    maskLoop self st l = Except.error e →
    e = Err.shapeMismatch ∨ e = Err.danglingAxis ∨ e = Err.orderOutOfRange := by
  intro l
  induction l with
  | nil => intro st e h; exact Except.noConfusion h
  | cons x rest ih =>
    intro st e h
    cases x with
    | tensor a =>
      rw [maskLoop] at h
      split at h
      · split at h
        · rcases bindEqErr.mp h with h1 | ⟨a', _, h2⟩
          · exact Or.inr (prim_reorder_err a [Option.none] e h1)
          · exact ih _ e h2
        · split at h
          · exact ih _ e h
          · injection h with h
            exact Or.inl h.symm
      · exact ih _ e h
    | noneIdx => rw [maskLoop] at h; exact ih _ e h
    | ellipsis => simp only [maskLoop] at h; exact ih _ e h
    | intIdx v => simp only [maskLoop] at h; exact ih _ e h
    | slc s => simp only [maskLoop] at h; exact ih _ e h
    | boolLit b => simp only [maskLoop] at h; exact ih _ e h

theorem planLoop_err : ∀ (l : List RawIdx) (st : PlanState) (e : Err),
    planLoop st l = Except.error e → e = Err.invalidIndex := by
  intro l
  induction l with
  | nil => intro st e h; exact Except.noConfusion h
  | cons x rest ih =>
    intro st e h
    cases x with
    | noneIdx => rw [planLoop] at h; exact ih _ e h
    | intIdx v => rw [planLoop] at h; exact ih _ e h
    | boolLit b => rw [planLoop] at h; exact ih _ e h
    | tensor a => rw [planLoop] at h; exact ih _ e h
    | slc s =>
      rw [planLoop] at h
      split at h
      · exact ih _ e h
      · exact ih _ e h
    | ellipsis =>
      rw [planLoop] at h
      injection h with h
      exact h.symm

theorem shiftPermute_err (nb : Nat) : ∀ (l : List (Option Nat)) (e : Err),
    shiftPermute nb l = Except.error e → e = Err.typeError := by
  intro l
  induction l with
  | nil => intro e h; exact Except.noConfusion h
  | cons o rest ih =>
    intro e h
    cases o with
    | none =>
      rw [shiftPermute] at h
      injection h with h
      exact h.symm
    | some p =>
      rw [shiftPermute] at h
      rcases bindEqErr.mp h with h1 | ⟨a, _, h2⟩
      · exact ih e h1
      · exact Except.noConfusion h2

theorem finishTail_err (self_ cur : Tensor) (permute : List (Option Nat)) (c sR : Bool)
    (g : Option (List Nat × List Nat × List Nat)) (w : Nat) (e : Err)
    (h : finishTail self_ cur permute c sR g w = Except.error e) :
    e = Err.danglingAxis ∨ e = Err.orderOutOfRange := by
  rw [finishTail] at h
  rcases bindEqErr.mp h with h1 | ⟨fin, _, h2⟩
  · split at h1
    · exact prim_reorder_err cur permute e h1
    · exact Except.noConfusion h1
  · exact Except.noConfusion h2

/-! ### Success-case inversion lemmas -/

theorem base_getitem_slices_ok_inv (t : Tensor) (args : List Slc) (y : Tensor)
    (h : base_getitem_slices t args = Except.ok y) :
    y.storage = t.storage ∧ y.dtype = t.dtype ∧ y.oid = t.oid + 1 := by
  rw [base_getitem_slices] at h
  rcases bindEqOk.mp h with ⟨⟨shp, strd, off⟩, _, h2⟩
  injection h2 with h2
  rw [← h2]
  exact ⟨rfl, rfl, rfl⟩

theorem prim_slice_ok_inv (t : Tensor) (dims : List Nat) (slcs : List SliceOrInt)
    (y : Tensor) (h : prim_slice t dims slcs = Except.ok y) :
    y.storage = t.storage ∧ y.dtype = t.dtype ∧ y.oid = t.oid + 1 := by
  rw [prim_slice] at h
  rcases bindEqOk.mp h with ⟨args, _, h2⟩
  exact base_getitem_slices_ok_inv t args y h2

theorem prim_reorder_ok_inv (t : Tensor) (order : List (Option Nat)) (y : Tensor)
    (h : prim_reorder t order = Except.ok y) :
    y.storage = t.storage ∧ y.offset = t.offset ∧ y.dtype = t.dtype ∧ y.oid = t.oid + 1 := by
  rw [prim_reorder] at h
  split at h
  · rcases bindEqOk.mp h with ⟨picked, _, h2⟩
    injection h2 with h2
    rw [← h2]
    exact ⟨rfl, rfl, rfl, rfl⟩
  · exact Except.noConfusion h

theorem foldl_movedim_storage (d : Nat) : ∀ (l : List Nat) (g : Tensor),
    (l.foldl (fun r i => movedim r (d + i) i) g).storage = g.storage := by
  intro l
  induction l with
  | nil => intro g; rfl
  | cons a l ih =>
    intro g
    rw [List.foldl_cons]
    exact ih (movedim g (d + a) a)

theorem prim_gather_storage_eq (t : Tensor) (dims : List Nat) (idxs : List Tensor) :
    (prim_gather t dims idxs).storage = (base_getitem_adv t dims idxs).storage := by
  rw [prim_gather]
  split
  · exact foldl_movedim_storage _ _ _
  · rfl

theorem base_getitem_adv_storage (t : Tensor) (dims : List Nat) (idxs : List Tensor) :
    (base_getitem_adv t dims idxs).storage.id = t.storage.id + 1
    ∧ (base_getitem_adv t dims idxs).storage.data.length
        = (if dims.length = 1 then gatherShape1 t (dims.headD 0) (idxs.headD default).shape
           else gatherShapeN t dims (idxs.headD default).shape).prod := by
  constructor
  · rfl
  · show ((allIdx _).map _).length = _
    rw [List.length_map, allIdx_length]

theorem finishTail_ok_inv (self_ cur : Tensor) (permute : List (Option Nat)) (c sR : Bool)
    (g : Option (List Nat × List Nat × List Nat)) (w : Nat) (r : Tensor) (tr : Trace)
    (h : finishTail self_ cur permute c sR g w = Except.ok (r, tr)) :
    ∃ fin : Tensor,
      ((needsReorder cur permute = true ∧ prim_reorder cur permute = Except.ok fin) ∨
        (needsReorder cur permute = false ∧ fin = cur)) ∧
      r = (if fin.oid = self_.oid then aliasOp fin else fin) ∧
      tr = ⟨c, sR, g, needsReorder cur permute, w⟩ := by
  rw [finishTail] at h
  rcases bindEqOk.mp h with ⟨fin, h1, h2⟩
  injection h2 with h2
  obtain ⟨hr, htr⟩ := Prod.mk.injEq _ _ _ _ ▸ h2
  refine ⟨fin, ?_, hr.symm, htr.symm⟩
  by_cases hn : needsReorder cur permute
  · rw [if_pos hn] at h1
    exact Or.inl ⟨hn, h1⟩
  · rw [if_neg hn] at h1
    injection h1 with h1
    exact Or.inr ⟨by simpa using hn, h1.symm⟩

theorem finishTail_storage (self_ cur : Tensor) (permute : List (Option Nat)) (c sR : Bool)
    (g : Option (List Nat × List Nat × List Nat)) (w : Nat) (r : Tensor) (tr : Trace)
    (h : finishTail self_ cur permute c sR g w = Except.ok (r, tr)) :
    r.storage = cur.storage ∧ tr.corrective = c ∧ tr.sliceRan = sR ∧ tr.gatherInfo = g
    ∧ tr.finalReorder = needsReorder cur permute ∧ tr.warnings = w := by
  obtain ⟨fin, hfin, hr, htr⟩ := finishTail_ok_inv self_ cur permute c sR g w r tr h
  have hfs : fin.storage = cur.storage := by
    rcases hfin with ⟨_, hre⟩ | ⟨_, rfl⟩
    · exact (prim_reorder_ok_inv _ _ _ hre).1
    · rfl
  subst htr
  refine ⟨?_, rfl, rfl, rfl, rfl, rfl⟩
  rw [hr]
  split
  · exact hfs
  · exact hfs

theorem afterPlan_ok_inv (self_ self : Tensor) (pst : PlanState) (c : Bool) (w : Nat)
    (r : Tensor) (tr : Trace) (h : afterPlan self_ self pst c w = Except.ok (r, tr)) :
    ∃ sliced : Tensor,
      ((pst.slice_dims.isEmpty = true ∧ sliced = self) ∨
        (pst.slice_dims.isEmpty = false ∧
          prim_slice self pst.slice_dims pst.slices = Except.ok sliced)) ∧
      ((pst.gather_dims.isEmpty = true ∧
          finishTail self_ sliced pst.permute c (!pst.slice_dims.isEmpty) Option.none w
            = Except.ok (r, tr)) ∨
        (pst.gather_dims.isEmpty = false ∧
          ∃ bts permute2,
            broadcast_tensors pst.gather_tensors = Except.ok bts ∧
            shiftPermute (bts.headD default).rank pst.permute = Except.ok permute2 ∧
            finishTail self_ (prim_gather sliced pst.gather_dims bts)
              (permute2.take (pst.gip.getD 0) ++
                (List.range (bts.headD default).rank).map some ++
                permute2.drop (pst.gip.getD 0))
              c (!pst.slice_dims.isEmpty)
              (some ((bts.headD default).shape, pst.gather_dims, sliced.shape)) w
              = Except.ok (r, tr))) := by
  rw [afterPlan] at h
  rcases bindEqOk.mp h with ⟨sliced, h1, h2⟩
  refine ⟨sliced, ?_, ?_⟩
  · split at h1
    · next he =>
      injection h1 with h1
      exact Or.inl ⟨he, h1.symm⟩
    · next he =>
      exact Or.inr ⟨by simpa using he, h1⟩
  · split at h2
    · next hg => exact Or.inl ⟨hg, h2⟩
    · next hg =>
      rcases bindEqOk.mp h2 with ⟨bts, h3, h4⟩
      rcases bindEqOk.mp h4 with ⟨perm, h5, h6⟩
      exact Or.inr ⟨by simpa using hg, bts, perm, h3, h5, h6⟩

theorem getitem_ok_inv (t : Tensor) (idx : List RawIdx) (r : Tensor) (tr : Trace)
    (h : getitem t idx = Except.ok (r, tr)) :
    ∃ (mst : MaskState) (self1 : Tensor) (pst : PlanState),
      maskLoop t ⟨(List.range t.rank).map some, 0, []⟩ (paddedIdx t idx) = Except.ok mst ∧
      ((nSpec idx < mst.initial_reorder.length ∧
          prim_reorder t mst.initial_reorder = Except.ok self1) ∨
        (¬ nSpec idx < mst.initial_reorder.length ∧ self1 = t)) ∧
      planLoop planInit mst.new_index = Except.ok pst ∧
      afterPlan t self1 pst (decide (nSpec idx < mst.initial_reorder.length))
        ((wrappedIdx idx).countP isByteTensor) = Except.ok (r, tr) ∧
      ¬ t.rank < nSpec idx := by
  rw [getitem] at h
  split at h
  · exact Except.noConfusion h
  · next hc =>
    rcases bindEqOk.mp h with ⟨mst, h1, h2⟩
    rcases bindEqOk.mp h2 with ⟨self1, h3, h4⟩
    rcases bindEqOk.mp h4 with ⟨pst, h5, h6⟩
    refine ⟨mst, self1, pst, h1, ?_, h5, h6, hc⟩
    by_cases hcor : nSpec idx < mst.initial_reorder.length
    · rw [if_pos (by simpa using hcor)] at h3
      exact Or.inl ⟨hcor, h3⟩
    · rw [if_neg (by simpa using hcor)] at h3
      injection h3 with h3
      exact Or.inr ⟨hcor, h3.symm⟩

theorem afterPlan_err (self_ self : Tensor) (pst : PlanState) (c : Bool) (w : Nat) (e : Err)
    (h : afterPlan self_ self pst c w = Except.error e) : e ≠ Err.rankError := by
  rw [afterPlan] at h
  rcases bindEqErr.mp h with h1 | ⟨sliced, _, h2⟩
  · split at h1
    · exact Except.noConfusion h1
    · rcases prim_slice_err _ _ _ e h1 with rfl | rfl <;> simp
  · split at h2
    · rcases finishTail_err _ _ _ _ _ _ _ e h2 with rfl | rfl <;> simp
    · rcases bindEqErr.mp h2 with h3 | ⟨bts, _, h4⟩
      · rw [broadcast_tensors_err _ e h3]
        simp
      · rcases bindEqErr.mp h4 with h5 | ⟨perm, _, h6⟩
        · rw [shiftPermute_err _ _ e h5]
          simp
        · rcases finishTail_err _ _ _ _ _ _ _ e h6 with rfl | rfl <;> simp

/-- C7: `getitem` fails with the rank error exactly when the total
specified-dimension count (`None`, `Ellipsis` and boolean scalars counting 0,
boolean/byte mask tensors counting their rank, anything else counting 1)
exceeds the source's rank. -/
theorem getitem_rankError_iff (t : Tensor) (index_ : List RawIdx) :
    getitem t index_ = Except.error Err.rankError ↔
      t.rank < (index_.map n_specified).sum := by
  have hwrap : nSpec index_ = (index_.map n_specified).sum := by
    rw [nSpec, wrappedIdx, List.map_map]
    exact congrArg List.sum (List.map_congr_left (fun x _ => by
      cases x <;> simp [wrap_sequences, n_specified, scalarBoolTensor, isMaskD, Tensor.rank]))
  rw [← hwrap]
  constructor
  · intro h
    by_contra hc
    rw [getitem, if_neg hc] at h
    rcases bindEqErr.mp h with h1 | ⟨mst, _, h2⟩
    · rcases maskLoop_err t _ _ _ h1 with h' | h' | h' <;> exact Err.noConfusion h'
    · rcases bindEqErr.mp h2 with h3 | ⟨self1, _, h4⟩
      · split at h3
        · rcases prim_reorder_err _ _ _ h3 with h' | h' <;> exact Err.noConfusion h'
        · exact Except.noConfusion h3
      · rcases bindEqErr.mp h4 with h5 | ⟨pst, _, h6⟩
        · exact Err.noConfusion (planLoop_err _ _ _ h5)
        · exact afterPlan_err _ _ _ _ _ _ h6 rfl
  · intro h
    rw [getitem, if_pos h]

/-! ### C1: view versus copy -/

/-- Basic slot: `Slice`, `Integer` or `Ellipsis` (the latter normalises away). -/
def isBasicIdx : RawIdx → Bool
  | RawIdx.intIdx _ => true
  | RawIdx.slc _ => true
  | RawIdx.ellipsis => true
  | _ => false

/-- Advanced slot: a coordinate/mask tensor, or a raw bool (which wraps into a
0-dim boolean mask). -/
def hasAdvIdx : RawIdx → Bool
  | RawIdx.tensor _ => true
  | RawIdx.boolLit _ => true
  | _ => false

/-- Tensor slot. -/
def isTensorIdx : RawIdx → Bool
  | RawIdx.tensor _ => true
  | _ => false

theorem countP_wrapped (idx : List RawIdx) :
    (wrappedIdx idx).countP isTensorIdx = idx.countP hasAdvIdx := by
  rw [wrappedIdx]
  induction idx with
  | nil => rfl
  | cons x rest ih =>
    rw [List.map_cons, List.countP_cons, List.countP_cons, ih]
    cases x <;> rfl

theorem countP_padSplit (p : RawIdx → Bool) (hp : p RawIdx.ellipsis = false)
    (R : List RawIdx) (hR : R.countP p = 0) :
    ∀ l : List RawIdx,
      (l.take (l.findIdx (· == RawIdx.ellipsis)) ++ R ++
        l.drop (l.findIdx (· == RawIdx.ellipsis) + 1)).countP p = l.countP p := by
  intro l
  induction l with
  | nil => simp [hR]
  | cons x xs ih =>
    by_cases hx : x = RawIdx.ellipsis
    · subst hx
      simp [List.findIdx_cons, List.countP_append, List.countP_cons, hR, hp]
    · have hbeq : (x == RawIdx.ellipsis) = false := by
        simp [hx]
      simp only [List.findIdx_cons, hbeq, cond_false, List.take_succ_cons,
        List.drop_succ_cons, List.cons_append, List.countP_cons,
        List.countP_append] at ih ⊢
      omega

theorem countP_paddedIdx (t : Tensor) (idx : List RawIdx) (p : RawIdx → Bool)
    (hp : p RawIdx.ellipsis = false) (hs : p (RawIdx.slc empty_slice) = false) :
    (paddedIdx t idx).countP p = (wrappedIdx idx).countP p := by
  rw [paddedIdx]
  exact countP_padSplit p hp _
    (List.countP_eq_zero.mpr (fun a ha => by rw [List.eq_of_mem_replicate ha]; simp [hs]))
    (wrappedIdx idx)

theorem nonzero_length (m : Tensor) : (nonzero m).length = m.rank := by
  rw [nonzero]
  simp

theorem countP_nonzero_map (m : Tensor) :
    ((nonzero m).map RawIdx.tensor).countP isTensorIdx = m.rank := by
  rw [List.countP_map]
  have : ∀ a ∈ nonzero m, (isTensorIdx ∘ RawIdx.tensor) a = true := fun a _ => rfl
  rw [List.countP_eq_length.mpr this, nonzero_length]

theorem prim_reorder_scalar (a : Tensor) (h : a.rank = 0) :
    prim_reorder a [Option.none] = Except.ok
      { shape := [1], stride := [0], offset := a.offset,
        storage := a.storage, dtype := a.dtype, oid := a.oid + 1 } := by
  rw [prim_reorder, if_pos (by rw [h]; rfl)]
  rw [show reorderPick a [Option.none] = Except.ok [(1, 0)] from rfl]
  rfl

theorem maskLoop_newIdx_count_mono (self : Tensor) (p : RawIdx → Bool) :
    ∀ (l : List RawIdx) (st mst : MaskState),
      maskLoop self st l = Except.ok mst →
      st.new_index.countP p ≤ mst.new_index.countP p := by
  intro l
  induction l with
  | nil =>
    intro st mst h
    rw [maskLoop] at h
    injection h with h
    rw [h]
  | cons x rest ih =>
    intro st mst h
    cases x with
    | tensor a =>
      rw [maskLoop] at h
      split at h
      · split at h
        · rcases bindEqOk.mp h with ⟨a', _, h2⟩
          calc st.new_index.countP p
              ≤ (st.new_index ++ (nonzero a').map RawIdx.tensor).countP p := by
                rw [List.countP_append]; omega
            _ ≤ mst.new_index.countP p := ih _ mst h2
        · split at h
          · calc st.new_index.countP p
                ≤ (st.new_index ++ (nonzero a).map RawIdx.tensor).countP p := by
                  rw [List.countP_append]; omega
              _ ≤ mst.new_index.countP p := ih _ mst h
          · exact Except.noConfusion h
      · calc st.new_index.countP p
            ≤ (st.new_index ++ [RawIdx.tensor a]).countP p := by
              rw [List.countP_append]; omega
          _ ≤ mst.new_index.countP p := ih _ mst h
    | noneIdx =>
      rw [maskLoop] at h
      calc st.new_index.countP p
          ≤ (st.new_index ++ [RawIdx.noneIdx]).countP p := by
            rw [List.countP_append]; omega
        _ ≤ mst.new_index.countP p := ih _ mst h
    | ellipsis =>
      simp only [maskLoop] at h
      calc st.new_index.countP p
          ≤ (st.new_index ++ [RawIdx.ellipsis]).countP p := by
            rw [List.countP_append]; omega
        _ ≤ mst.new_index.countP p := ih _ mst h
    | intIdx v =>
      simp only [maskLoop] at h
      calc st.new_index.countP p
          ≤ (st.new_index ++ [RawIdx.intIdx v]).countP p := by
            rw [List.countP_append]; omega
        _ ≤ mst.new_index.countP p := ih _ mst h
    | slc s =>
      simp only [maskLoop] at h
      calc st.new_index.countP p
          ≤ (st.new_index ++ [RawIdx.slc s]).countP p := by
            rw [List.countP_append]; omega
        _ ≤ mst.new_index.countP p := ih _ mst h
    | boolLit b =>
      simp only [maskLoop] at h
      calc st.new_index.countP p
          ≤ (st.new_index ++ [RawIdx.boolLit b]).countP p := by
            rw [List.countP_append]; omega
        _ ≤ mst.new_index.countP p := ih _ mst h

theorem maskLoop_no_tensor (self : Tensor) :
    ∀ (l : List RawIdx) (st mst : MaskState),
      l.countP isTensorIdx = 0 → maskLoop self st l = Except.ok mst →
      mst.new_index.countP isTensorIdx = st.new_index.countP isTensorIdx := by
  intro l
  induction l with
  | nil =>
    intro st mst _ h
    rw [maskLoop] at h
    injection h with h
    rw [h]
  | cons x rest ih =>
    intro st mst h0 h
    rw [List.countP_cons] at h0
    cases x with
    | tensor a => simp [isTensorIdx] at h0
    | noneIdx =>
      rw [maskLoop] at h
      rw [ih _ mst (by omega) h, List.countP_append]
      simp [isTensorIdx]
    | ellipsis =>
      simp only [maskLoop] at h
      rw [ih _ mst (by omega) h, List.countP_append]
      simp [isTensorIdx]
    | intIdx v =>
      simp only [maskLoop] at h
      rw [ih _ mst (by omega) h, List.countP_append]
      simp [isTensorIdx]
    | slc s =>
      simp only [maskLoop] at h
      rw [ih _ mst (by omega) h, List.countP_append]
      simp [isTensorIdx]
    | boolLit b =>
      simp only [maskLoop] at h
      rw [ih _ mst (by omega) h, List.countP_append]
      simp [isTensorIdx]

theorem maskLoop_has_tensor (self : Tensor) :
    ∀ (l : List RawIdx) (st mst : MaskState),
      0 < l.countP isTensorIdx → maskLoop self st l = Except.ok mst →
      0 < mst.new_index.countP isTensorIdx := by
  intro l
  induction l with
  | nil =>
    intro st mst h0 _
    simp at h0
  | cons x rest ih =>
    intro st mst h0 h
    cases x with
    | tensor a =>
      rw [maskLoop] at h
      split at h
      · split at h
        · next hr0 =>
          rcases bindEqOk.mp h with ⟨a', ha', h2⟩
          have hmono := maskLoop_newIdx_count_mono self isTensorIdx rest _ mst h2
          rw [prim_reorder_scalar a hr0] at ha'
          injection ha' with ha'
          rw [List.countP_append, countP_nonzero_map] at hmono
          have hrank1 : a'.rank = 1 := by rw [← ha']; rfl
          omega
        · next hr0 =>
          split at h
          · have hmono := maskLoop_newIdx_count_mono self isTensorIdx rest _ mst h
            rw [List.countP_append, countP_nonzero_map] at hmono
            have : 0 < a.rank := Nat.pos_of_ne_zero hr0
            omega
          · exact Except.noConfusion h
      · have hmono := maskLoop_newIdx_count_mono self isTensorIdx rest _ mst h
        rw [List.countP_append, List.countP_cons,
          show isTensorIdx (RawIdx.tensor a) = true from rfl] at hmono
        simp at hmono
        omega
    | noneIdx =>
      rw [maskLoop] at h
      rw [List.countP_cons, show isTensorIdx RawIdx.noneIdx = false from rfl] at h0
      exact ih _ mst (by simpa using h0) h
    | ellipsis =>
      simp only [maskLoop] at h
      rw [List.countP_cons, show isTensorIdx RawIdx.ellipsis = false from rfl] at h0
      exact ih _ mst (by simpa using h0) h
    | intIdx v =>
      simp only [maskLoop] at h
      rw [List.countP_cons, show isTensorIdx (RawIdx.intIdx v) = false from rfl] at h0
      exact ih _ mst (by simpa using h0) h
    | slc s =>
      simp only [maskLoop] at h
      rw [List.countP_cons, show isTensorIdx (RawIdx.slc s) = false from rfl] at h0
      exact ih _ mst (by simpa using h0) h
    | boolLit b =>
      simp only [maskLoop] at h
      rw [List.countP_cons, show isTensorIdx (RawIdx.boolLit b) = false from rfl] at h0
      exact ih _ mst (by simpa using h0) h

theorem planLoop_no_tensor :
    ∀ (l : List RawIdx) (st pst : PlanState),
      l.countP isTensorIdx = 0 → planLoop st l = Except.ok pst →
      pst.gather_dims = st.gather_dims := by
  intro l
  induction l with
  | nil =>
    intro st pst _ h
    rw [planLoop] at h
    injection h with h
    rw [h]
  | cons x rest ih =>
    intro st pst h0 h
    rw [List.countP_cons] at h0
    cases x with
    | tensor a => simp [isTensorIdx] at h0
    | noneIdx =>
      rw [planLoop] at h
      have := ih _ pst (by omega) h
      exact this
    | intIdx v =>
      rw [planLoop] at h
      have := ih _ pst (by omega) h
      exact this
    | boolLit b =>
      rw [planLoop] at h
      have := ih _ pst (by omega) h
      exact this
    | slc s =>
      rw [planLoop] at h
      split at h
      · have := ih _ pst (by omega) h
        exact this
      · have := ih _ pst (by omega) h
        exact this
    | ellipsis =>
      rw [planLoop] at h
      exact Except.noConfusion h

theorem planLoop_gd_mono :
    ∀ (l : List RawIdx) (st pst : PlanState),
      planLoop st l = Except.ok pst →
      st.gather_dims.length ≤ pst.gather_dims.length := by
  intro l
  induction l with
  | nil =>
    intro st pst h
    rw [planLoop] at h
    injection h with h
    rw [h]
  | cons x rest ih =>
    intro st pst h
    cases x with
    | tensor a =>
      rw [planLoop] at h
      have := ih _ pst h
      simp at this
      omega
    | noneIdx =>
      rw [planLoop] at h
      have := ih _ pst h
      exact this
    | intIdx v =>
      rw [planLoop] at h
      have := ih _ pst h
      exact this
    | boolLit b =>
      rw [planLoop] at h
      have := ih _ pst h
      exact this
    | slc s =>
      rw [planLoop] at h
      split at h
      · have := ih _ pst h
        exact this
      · have := ih _ pst h
        simp at this
        omega
    | ellipsis =>
      rw [planLoop] at h
      exact Except.noConfusion h

theorem planLoop_has_tensor :
    ∀ (l : List RawIdx) (st pst : PlanState),
      0 < l.countP isTensorIdx → planLoop st l = Except.ok pst →
      0 < pst.gather_dims.length := by
  intro l
  induction l with
  | nil =>
    intro st pst h0 _
    simp at h0
  | cons x rest ih =>
    intro st pst h0 h
    rw [List.countP_cons] at h0
    cases x with
    | tensor a =>
      rw [planLoop] at h
      have := planLoop_gd_mono rest _ pst h
      simp at this
      omega
    | noneIdx =>
      rw [planLoop] at h
      exact ih _ pst (by rw [show isTensorIdx RawIdx.noneIdx = false from rfl] at h0; simpa using h0) h
    | intIdx v =>
      rw [planLoop] at h
      exact ih _ pst (by rw [show isTensorIdx (RawIdx.intIdx v) = false from rfl] at h0; simpa using h0) h
    | boolLit b =>
      rw [planLoop] at h
      exact ih _ pst (by rw [show isTensorIdx (RawIdx.boolLit b) = false from rfl] at h0; simpa using h0) h
    | slc s =>
      rw [planLoop] at h
      rw [show isTensorIdx (RawIdx.slc s) = false from rfl] at h0
      split at h
      · exact ih _ pst (by simpa using h0) h
      · exact ih _ pst (by simpa using h0) h
    | ellipsis =>
      rw [planLoop] at h
      exact Except.noConfusion h

theorem gather_numel (t : Tensor) (dims : List Nat) (B : List Nat) :
    (if dims.length = 1 then gatherShape1 t (dims.headD 0) B else gatherShapeN t dims B).prod
      = B.prod * ((List.range t.rank).map
          (fun i => if i ∈ dims then 1 else t.shape.getD i 0)).prod := by
  split
  · next h1 =>
    obtain ⟨d, rfl⟩ := List.length_eq_one.mp h1
    show (gatherShape1 t d B).prod = _
    rw [gatherShape1]
    by_cases hd : d < t.shape.length
    · rw [Tensor.rank, range_map_single t.shape d hd]
      rw [List.prod_append, List.prod_append, List.prod_cons, List.prod_append,
        List.prod_cons]
      ring
    · have htake : t.shape.take d = t.shape := List.take_of_length_le (by omega)
      have hdrop : t.shape.drop (d + 1) = [] := List.drop_eq_nil_iff.mpr (by omega)
      have hmap : (List.range t.rank).map (fun i => if i ∈ [d] then 1 else t.shape.getD i 0)
          = t.shape := by
        rw [Tensor.rank]
        calc (List.range t.shape.length).map (fun i => if i ∈ [d] then 1 else t.shape.getD i 0)
            = (List.range t.shape.length).map (fun i => t.shape.getD i 0) := by
              refine List.map_congr_left (fun i hi => ?_)
              rw [List.mem_range] at hi
              rw [if_neg (by simp; omega)]
          _ = t.shape := map_getD_self t.shape 0
      rw [htake, hdrop, hmap]
      rw [List.prod_append, List.prod_append, List.prod_cons]
      simp [Nat.mul_comm]
  · rw [gatherShapeN, List.prod_append]

theorem corrective_storage {t self1 : Tensor} {mst : MaskState} {n : Nat}
    (h : (n < mst.initial_reorder.length ∧
          prim_reorder t mst.initial_reorder = Except.ok self1)
       ∨ (¬ n < mst.initial_reorder.length ∧ self1 = t)) :
    self1.storage = t.storage := by
  rcases h with ⟨_, hre⟩ | ⟨_, rfl⟩
  · exact (prim_reorder_ok_inv _ _ _ hre).1
  · rfl

theorem sliced_storage {self sliced : Tensor} {pst : PlanState}
    (h : (pst.slice_dims.isEmpty = true ∧ sliced = self) ∨
      (pst.slice_dims.isEmpty = false ∧
        prim_slice self pst.slice_dims pst.slices = Except.ok sliced)) :
    sliced.storage = self.storage := by
  rcases h with ⟨_, rfl⟩ | ⟨_, hsl⟩
  · rfl
  · exact (prim_slice_ok_inv _ _ _ _ hsl).1

/-- C1: a `Slice`/`Integer`-only index expression (ellipsis allowed, it
normalises into full slices) resolves to a pure view sharing the source's
storage, while an expression containing an advanced element (a tensor or a
raw bool, i.e. an `IntIndex` or `BoolMask` slot) resolves to newly allocated
storage whose size is the product of the broadcast shape of all advanced
indices with the non-gathered dimensions of the gathered source. -/
theorem getitem_view_or_copy :
    (∀ (t : Tensor) (idx : List RawIdx) (r : Tensor) (tr : Trace),
        (∀ x ∈ idx, isBasicIdx x = true) →
        getitem t idx = Except.ok (r, tr) → r.storage = t.storage)
    ∧ (∀ (t : Tensor) (idx : List RawIdx) (r : Tensor) (tr : Trace),
        (∃ x ∈ idx, hasAdvIdx x = true) →
        getitem t idx = Except.ok (r, tr) →
        r.storage ≠ t.storage ∧ r.storage.id = t.storage.id + 1 ∧
        ∃ B dims sshape, tr.gatherInfo = some (B, dims, sshape) ∧
          r.storage.data.length
            = B.prod * ((List.range sshape.length).map
                (fun i => if i ∈ dims then 1 else sshape.getD i 0)).prod) := by
  constructor
  · intro t idx r tr hbasic hok
    obtain ⟨mst, self1, pst, hmask, hcor, hplan, hafter, _⟩ := getitem_ok_inv t idx r tr hok
    have hw0 : (wrappedIdx idx).countP isTensorIdx = 0 := by
      rw [countP_wrapped]
      exact List.countP_eq_zero.mpr (fun a ha => by
        have hb := hbasic a ha
        cases a <;> simp_all [isBasicIdx, hasAdvIdx])
    have hp0 : (paddedIdx t idx).countP isTensorIdx = 0 := by
      rw [countP_paddedIdx t idx isTensorIdx rfl rfl, hw0]
    have hnew0 : mst.new_index.countP isTensorIdx = 0 := by
      rw [maskLoop_no_tensor t _ _ mst hp0 hmask]
      rfl
    have hgd : pst.gather_dims = [] := by
      rw [planLoop_no_tensor _ _ pst hnew0 hplan]
      rfl
    obtain ⟨sliced, hslice, hrest⟩ := afterPlan_ok_inv _ _ _ _ _ _ _ hafter
    rcases hrest with ⟨_, hfin⟩ | ⟨hne, _⟩
    · have h1 := (finishTail_storage _ _ _ _ _ _ _ _ _ hfin).1
      rw [h1, sliced_storage hslice, corrective_storage hcor]
    · rw [hgd] at hne
      exact absurd hne (by simp)
  · intro t idx r tr hadv hok
    obtain ⟨mst, self1, pst, hmask, hcor, hplan, hafter, _⟩ := getitem_ok_inv t idx r tr hok
    have hwpos : 0 < (wrappedIdx idx).countP isTensorIdx := by
      rw [countP_wrapped]
      exact List.countP_pos_iff.mpr hadv
    have hppos : 0 < (paddedIdx t idx).countP isTensorIdx := by
      rw [countP_paddedIdx t idx isTensorIdx rfl rfl]
      exact hwpos
    have hnewpos := maskLoop_has_tensor t _ _ mst hppos hmask
    have hgdpos : 0 < pst.gather_dims.length := planLoop_has_tensor _ _ pst hnewpos hplan
    obtain ⟨sliced, hslice, hrest⟩ := afterPlan_ok_inv _ _ _ _ _ _ _ hafter
    rcases hrest with ⟨hemp, _⟩ | ⟨_, bts, perm2, hbts, hperm, hfin⟩
    · cases hgdc : pst.gather_dims with
      | nil => rw [hgdc] at hgdpos; simp at hgdpos
      | cons a l => rw [hgdc] at hemp; simp at hemp
    · obtain ⟨hstor, _, _, hgi, _, _⟩ := finishTail_storage _ _ _ _ _ _ _ _ _ hfin
      have hbase := prim_gather_storage_eq sliced pst.gather_dims bts
      obtain ⟨hid, hlen⟩ := base_getitem_adv_storage sliced pst.gather_dims bts
      have hs1 : sliced.storage = t.storage := by
        rw [sliced_storage hslice, corrective_storage hcor]
      refine ⟨?_, ?_, (bts.headD default).shape, pst.gather_dims, sliced.shape, hgi, ?_⟩
      · rw [hstor, hbase]
        intro hcontra
        have hideq : (base_getitem_adv sliced pst.gather_dims bts).storage.id
            = t.storage.id := by rw [hcontra]
        rw [hid, hs1] at hideq
        omega
      · rw [hstor, hbase, hid, hs1]
      · rw [hstor, hbase, hlen, gather_numel]
        rfl

/-! ### C4: pure pass-through returns a distinct object -/

/-- C4: when no primitive executes (no corrective reorder, no slice plan, no
gather plan, no final reorder — e.g. `t[:, :, :]`), `getitem` still returns a
distinct object via the explicit alias step, with identical shape, strides,
offset and values, sharing the source's storage. -/
theorem getitem_passthrough (t : Tensor) (idx : List RawIdx) (r : Tensor) (tr : Trace)
    (hok : getitem t idx = Except.ok (r, tr))
    (hc : tr.corrective = false) (hs : tr.sliceRan = false)
    (hg : tr.gatherInfo = Option.none) (hf : tr.finalReorder = false) :
    r.oid ≠ t.oid ∧ r.shape = t.shape ∧ r.stride = t.stride ∧ r.offset = t.offset
    ∧ r.storage = t.storage ∧ ∀ ix, r.val ix = t.val ix := by
  obtain ⟨mst, self1, pst, hmask, hcor, hplan, hafter, _⟩ := getitem_ok_inv t idx r tr hok
  obtain ⟨sliced, hslice, hrest⟩ := afterPlan_ok_inv _ _ _ _ _ _ _ hafter
  rcases hrest with ⟨hemp, hfin⟩ | ⟨_, bts, perm2, _, _, hfin⟩
  · obtain ⟨fin, hfinor, hr, htr⟩ := finishTail_ok_inv _ _ _ _ _ _ _ _ _ hfin
    have hcfield : tr.corrective = decide (nSpec idx < mst.initial_reorder.length) := by
      rw [htr]
    have hsfield : tr.sliceRan = !pst.slice_dims.isEmpty := by rw [htr]
    have hffield : tr.finalReorder = needsReorder sliced pst.permute := by rw [htr]
    have hcor' : self1 = t := by
      rcases hcor with ⟨hlt, _⟩ | ⟨_, h'⟩
      · rw [hcfield] at hc
        exact absurd hlt (by simpa using hc)
      · exact h'
    have hsl' : sliced = self1 := by
      rcases hslice with ⟨_, h'⟩ | ⟨hne, _⟩
      · exact h'
      · rw [hsfield, hne] at hs
        exact Bool.noConfusion hs
    have hneeds : needsReorder sliced pst.permute = false := by
      rw [← hffield]
      exact hf
    have hfin' : fin = sliced := by
      rcases hfinor with ⟨htrue, _⟩ | ⟨_, h'⟩
      · rw [hneeds] at htrue
        exact Bool.noConfusion htrue
      · exact h'
    have hfint : fin = t := by rw [hfin', hsl', hcor']
    rw [hfint, if_pos rfl] at hr
    rw [hr]
    refine ⟨by simp [aliasOp], rfl, rfl, rfl, rfl, fun ix => rfl⟩
  · have hsome := (finishTail_storage _ _ _ _ _ _ _ _ _ hfin).2.2.2.1
    rw [hg] at hsome
    exact Option.noConfusion hsome

/-! ### C5: when the corrective reorder runs -/

/-- Scalar (0-rank) boolean/byte mask slot. -/
def isScalarMask : RawIdx → Bool
  | RawIdx.tensor a => isMaskD a.dtype && a.rank == 0
  | _ => false

/-- Number of scalar mask slots in a slot list. -/
def nScalarMasks (l : List RawIdx) : Nat := l.countP isScalarMask

theorem insertAt_length {α : Type} (l : List α) (n : Nat) (a : α) :
    (insertAt l n a).length = l.length + 1 := by
  rw [insertAt]
  simp only [List.length_append, List.length_cons, List.length_take, List.length_drop]
  omega

theorem maskLoop_ir_length (self : Tensor) : ∀ (l : List RawIdx) (st mst : MaskState),
    maskLoop self st l = Except.ok mst →
    mst.initial_reorder.length = st.initial_reorder.length + l.countP isScalarMask := by
  intro l
  induction l with
  | nil =>
    intro st mst h
    rw [maskLoop] at h
    injection h with h
    rw [h, List.countP_nil]
    omega
  | cons x rest ih =>
    intro st mst h
    rw [List.countP_cons]
    cases x with
    | tensor a =>
      rw [maskLoop] at h
      split at h
      · next hm =>
        split at h
        · next hr0 =>
          rcases bindEqOk.mp h with ⟨a', _, h2⟩
          have hih0 := ih _ mst h2
          have hih : mst.initial_reorder.length
              = (insertAt st.initial_reorder
                  (st.i + (st.initial_reorder.length - self.rank)) Option.none).length
                + rest.countP isScalarMask := hih0
          rw [insertAt_length] at hih
          have hsm : isScalarMask (RawIdx.tensor a) = true := by
            simp [isScalarMask, hm, hr0]
          rw [hsm, if_pos rfl]
          omega
        · next hr0 =>
          split at h
          · have hih0 := ih _ mst h
            have hih : mst.initial_reorder.length
                = st.initial_reorder.length + rest.countP isScalarMask := hih0
            have hsm : isScalarMask (RawIdx.tensor a) = false := by
              simp [isScalarMask, hr0]
            rw [hsm, if_neg (by simp)]
            omega
          · exact Except.noConfusion h
      · next hm =>
        have hih0 := ih _ mst h
        have hih : mst.initial_reorder.length
            = st.initial_reorder.length + rest.countP isScalarMask := hih0
        have hsm : isScalarMask (RawIdx.tensor a) = false := by
          simp [isScalarMask, hm]
        rw [hsm, if_neg (by simp)]
        omega
    | noneIdx =>
      rw [maskLoop] at h
      have hih0 := ih _ mst h
      have hih : mst.initial_reorder.length
          = st.initial_reorder.length + rest.countP isScalarMask := hih0
      rw [show isScalarMask RawIdx.noneIdx = false from rfl, if_neg (by simp)]
      omega
    | ellipsis =>
      simp only [maskLoop] at h
      have hih0 := ih _ mst h
      have hih : mst.initial_reorder.length
          = st.initial_reorder.length + rest.countP isScalarMask := hih0
      rw [show isScalarMask RawIdx.ellipsis = false from rfl, if_neg (by simp)]
      omega
    | intIdx v =>
      simp only [maskLoop] at h
      have hih0 := ih _ mst h
      have hih : mst.initial_reorder.length
          = st.initial_reorder.length + rest.countP isScalarMask := hih0
      rw [show isScalarMask (RawIdx.intIdx v) = false from rfl, if_neg (by simp)]
      omega
    | slc s =>
      simp only [maskLoop] at h
      have hih0 := ih _ mst h
      have hih : mst.initial_reorder.length
          = st.initial_reorder.length + rest.countP isScalarMask := hih0
      rw [show isScalarMask (RawIdx.slc s) = false from rfl, if_neg (by simp)]
      omega
    | boolLit b =>
      simp only [maskLoop] at h
      have hih0 := ih _ mst h
      have hih : mst.initial_reorder.length
          = st.initial_reorder.length + rest.countP isScalarMask := hih0
      rw [show isScalarMask (RawIdx.boolLit b) = false from rfl, if_neg (by simp)]
      omega

/-- C5 (amended): on a successful resolution, the corrective axis-reordering
pass on the source runs exactly when the source rank plus the number of
scalar (0-rank) mask slots exceeds the specified-dimension count — that is,
whenever padding is positive or a scalar mask is present, not only in the
scalar-mask case. -/
theorem getitem_corrective_iff (t : Tensor) (idx : List RawIdx) (r : Tensor) (tr : Trace)
    (hok : getitem t idx = Except.ok (r, tr)) :
    tr.corrective = true ↔
      nSpec idx < t.rank + nScalarMasks (wrappedIdx idx) := by
  obtain ⟨mst, self1, pst, hmask, hcor, hplan, hafter, _⟩ := getitem_ok_inv t idx r tr hok
  have hirlen : mst.initial_reorder.length
      = t.rank + (paddedIdx t idx).countP isScalarMask := by
    rw [maskLoop_ir_length t _ _ mst hmask]
    simp
  have hpad : (paddedIdx t idx).countP isScalarMask
      = nScalarMasks (wrappedIdx idx) := countP_paddedIdx t idx isScalarMask rfl rfl
  obtain ⟨sliced, hslice, hrest⟩ := afterPlan_ok_inv _ _ _ _ _ _ _ hafter
  have hcfield : tr.corrective = decide (nSpec idx < mst.initial_reorder.length) := by
    rcases hrest with ⟨_, hfin⟩ | ⟨_, bts, perm2, _, _, hfin⟩ <;>
      exact (finishTail_storage _ _ _ _ _ _ _ _ _ hfin).2.1
  rw [hcfield, hirlen, hpad]
  simp

/-! ### C10: byte masks versus boolean masks -/

/-- The `nonzero` coordinates of a tensor do not depend on its dtype. -/
theorem nonzero_retype (sh : List Nat) (sst : List Int) (o : Int) (sg : Storage)
    (d d' : DType) (oid : Nat) :
    nonzero ⟨sh, sst, o, sg, d, oid⟩ = nonzero ⟨sh, sst, o, sg, d', oid⟩ := rfl

/-- Retyping form of the dtype-irrelevance of `nonzero`. -/
theorem nonzero_retype' (m : Tensor) (d d' : DType) :
    nonzero { m with dtype := d } = nonzero { m with dtype := d' } := rfl

/-- One `maskLoop` step on a 0-rank mask slot. -/
theorem maskLoop_mask0 (self m : Tensor) (d : DType) (hd : isMaskD d = true)
    (h0 : m.rank = 0) (st : MaskState) (rest : List RawIdx) :
    maskLoop self st (RawIdx.tensor { m with dtype := d } :: rest)
      = maskLoop self
          ⟨insertAt st.initial_reorder (st.i + (st.initial_reorder.length - self.rank))
             Option.none, st.i,
           st.new_index ++
             (nonzero ⟨[1], [0], m.offset, m.storage, d, m.oid + 1⟩).map RawIdx.tensor⟩ rest := by
  have hd' : isMaskD ({ m with dtype := d } : Tensor).dtype = true := hd
  have h0' : ({ m with dtype := d } : Tensor).rank = 0 := h0
  simp only [maskLoop]
  rw [if_pos hd', if_pos h0', prim_reorder_scalar _ h0', okBind]

/-- One `maskLoop` step on a mask slot of positive rank. -/
theorem maskLoop_maskk (self m : Tensor) (d : DType) (hd : isMaskD d = true)
    (h0 : ¬ m.rank = 0) (st : MaskState) (rest : List RawIdx) :
    maskLoop self st (RawIdx.tensor { m with dtype := d } :: rest)
      = if m.shape = (self.shape.drop st.i).take m.rank then
          maskLoop self ⟨st.initial_reorder, st.i + m.rank,
            st.new_index ++ (nonzero { m with dtype := d }).map RawIdx.tensor⟩ rest
        else Except.error Err.shapeMismatch := by
  have hd' : isMaskD ({ m with dtype := d } : Tensor).dtype = true := hd
  have h0' : ¬ ({ m with dtype := d } : Tensor).rank = 0 := h0
  have hsh : ({ m with dtype := d } : Tensor).shape = m.shape := rfl
  have hrk : ({ m with dtype := d } : Tensor).rank = m.rank := rfl
  simp only [maskLoop]
  rw [if_pos hd', if_neg h0', hsh, hrk]

/-- Slot-wise relation: equal slots, or the byte/bool retyping of one mask. -/
def retypeRel (m : Tensor) (x y : RawIdx) : Prop :=
  x = y ∨ (x = RawIdx.tensor { m with dtype := DType.uint8 }
            ∧ y = RawIdx.tensor { m with dtype := DType.bool })

/-- `findIdx` is invariant along a pointwise relation the predicate respects. -/
theorem findIdx_rel {α : Type} (p : α → Bool) (R : α → α → Prop)
    (hp : ∀ x y, R x y → p x = p y) :
    ∀ {l l' : List α}, List.Forall₂ R l l' → l.findIdx p = l'.findIdx p := by
  intro l l' h
  induction h with
  | nil => rfl
  | cons hr _ ih => rw [List.findIdx_cons, List.findIdx_cons, hp _ _ hr, ih]

/-- The mask-expansion loop does not distinguish a byte mask from its boolean
retyping: related slot lists produce identical outcomes. -/
theorem maskLoop_retype (self m : Tensor) :
    ∀ {l l' : List RawIdx}, List.Forall₂ (retypeRel m) l l' →
      ∀ st, maskLoop self st l = maskLoop self st l' := by
  intro l l' h
  induction h with
  | nil => intro st; rfl
  | @cons x y l1 l2 hr htail ih =>
    intro st
    rcases hr with rfl | ⟨rfl, rfl⟩
    · cases x with
      | tensor a =>
        simp only [maskLoop]
        split_ifs with h1 h2 h3
        · cases hpr : prim_reorder a [Option.none] with
          | error e => rfl
          | ok a2 => simp only [okBind]; exact ih _
        · exact ih _
        · rfl
        · exact ih _
      | noneIdx => simp only [maskLoop]; exact ih _
      | ellipsis => simp only [maskLoop]; exact ih _
      | intIdx v => simp only [maskLoop]; exact ih _
      | slc s => simp only [maskLoop]; exact ih _
      | boolLit b => simp only [maskLoop]; exact ih _
    · by_cases h0 : m.rank = 0
      · rw [maskLoop_mask0 self m DType.uint8 rfl h0 st,
            maskLoop_mask0 self m DType.bool rfl h0 st,
            nonzero_retype [1] [0] m.offset m.storage DType.uint8 DType.bool (m.oid + 1)]
        exact ih _
      · rw [maskLoop_maskk self m DType.uint8 rfl h0 st,
            maskLoop_maskk self m DType.bool rfl h0 st,
            nonzero_retype' m DType.uint8 DType.bool]
        by_cases hsh : m.shape = (self.shape.drop st.i).take m.rank
        · rw [if_pos hsh, if_pos hsh]
          exact ih _
        · rw [if_neg hsh, if_neg hsh]

/-- `finishTail` threads the warning count straight into the trace. -/
theorem finishTail_warn (self_ cur : Tensor) (permute : List (Option Nat)) (c sR : Bool)
    (g : Option (List Nat × List Nat × List Nat)) (w : Nat) :
    finishTail self_ cur permute c sR g (w + 1)
      = Except.map (fun p => (p.1, { p.2 with warnings := p.2.warnings + 1 }))
          (finishTail self_ cur permute c sR g w) := by
  simp only [finishTail]
  cases h : (if needsReorder cur permute then prim_reorder cur permute else pure cur) with
  | error e => rfl
  | ok fin => rfl

/-- `afterPlan` threads the warning count straight into the trace. -/
theorem afterPlan_warn (self_ self : Tensor) (pst : PlanState) (c : Bool) (w : Nat) :
    afterPlan self_ self pst c (w + 1)
      = Except.map (fun p => (p.1, { p.2 with warnings := p.2.warnings + 1 }))
          (afterPlan self_ self pst c w) := by
  simp only [afterPlan]
  cases hs : (if pst.slice_dims.isEmpty then pure self
      else prim_slice self pst.slice_dims pst.slices) with
  | error e => rfl
  | ok sliced =>
    simp only [okBind]
    split
    · exact finishTail_warn _ _ _ _ _ _ _
    · cases hb : broadcast_tensors pst.gather_tensors with
      | error e => rfl
      | ok bts =>
        simp only [okBind]
        cases hp : shiftPermute (bts.headD default).rank pst.permute with
        | error e => rfl
        | ok permute2 =>
          simp only [okBind]
          exact finishTail_warn _ _ _ _ _ _ _

/-- The pipeline after a successful mask expansion threads the warning count
into the trace and nothing else. -/
theorem resolveTail_warn (t : Tensor) (mst : MaskState) (n w : Nat) :
    ((if decide (n < mst.initial_reorder.length) = true
        then prim_reorder t mst.initial_reorder else pure t) >>= fun self =>
      planLoop planInit mst.new_index >>= fun pst =>
      afterPlan t self pst (decide (n < mst.initial_reorder.length)) (w + 1))
    = Except.map (fun p => (p.1, { p.2 with warnings := p.2.warnings + 1 }))
        ((if decide (n < mst.initial_reorder.length) = true
            then prim_reorder t mst.initial_reorder else pure t) >>= fun self =>
          planLoop planInit mst.new_index >>= fun pst =>
          afterPlan t self pst (decide (n < mst.initial_reorder.length)) w) := by
  cases h1 : (if decide (n < mst.initial_reorder.length) = true
      then prim_reorder t mst.initial_reorder else pure t) with
  | error e => rfl
  | ok self1 =>
    simp only [okBind]
    cases h2 : planLoop planInit mst.new_index with
    | error e => rfl
    | ok pst =>
      simp only [okBind]
      exact afterPlan_warn _ _ _ _ _

/-- C10: resolving an index expression containing a byte (`uint8`) mask gives
exactly the result of the same expression with that mask retyped to `bool` —
same success or failure, same shape, values and view/copy behaviour — with
one extra deprecation warning counted in the trace and no other difference. -/
theorem getitem_byte_mask (t m : Tensor) (pre post : List RawIdx) :
    getitem t (pre ++ RawIdx.tensor { m with dtype := DType.uint8 } :: post)
      = Except.map (fun p => (p.1, { p.2 with warnings := p.2.warnings + 1 }))
          (getitem t (pre ++ RawIdx.tensor { m with dtype := DType.bool } :: post)) := by
  have hws : ∀ a : Tensor, wrap_sequences (RawIdx.tensor a) = RawIdx.tensor a :=
    fun a => rfl
  have hwu : wrappedIdx (pre ++ RawIdx.tensor { m with dtype := DType.uint8 } :: post)
      = wrappedIdx pre ++ RawIdx.tensor { m with dtype := DType.uint8 } :: wrappedIdx post := by
    rw [wrappedIdx, List.map_append, List.map_cons, hws]
    rfl
  have hwb : wrappedIdx (pre ++ RawIdx.tensor { m with dtype := DType.bool } :: post)
      = wrappedIdx pre ++ RawIdx.tensor { m with dtype := DType.bool } :: wrappedIdx post := by
    rw [wrappedIdx, List.map_append, List.map_cons, hws]
    rfl
  have hnsel : n_specified (RawIdx.tensor { m with dtype := DType.uint8 })
      = n_specified (RawIdx.tensor { m with dtype := DType.bool }) := rfl
  have hns : nSpec (pre ++ RawIdx.tensor { m with dtype := DType.uint8 } :: post)
      = nSpec (pre ++ RawIdx.tensor { m with dtype := DType.bool } :: post) := by
    rw [nSpec, nSpec, hwu, hwb, List.map_append, List.map_cons, List.map_append,
      List.map_cons, List.sum_append, List.sum_cons, List.sum_append, List.sum_cons, hnsel]
  have hwcnt : (wrappedIdx (pre ++ RawIdx.tensor { m with dtype := DType.uint8 } :: post)).countP
        isByteTensor
      = (wrappedIdx (pre ++ RawIdx.tensor { m with dtype := DType.bool } :: post)).countP
          isByteTensor + 1 := by
    rw [hwu, hwb, List.countP_append, List.countP_cons, List.countP_append, List.countP_cons,
      show isByteTensor (RawIdx.tensor { m with dtype := DType.uint8 }) = true from rfl,
      show isByteTensor (RawIdx.tensor { m with dtype := DType.bool }) = false from rfl]
    simp
    omega
  have hR : ∀ x : RawIdx, retypeRel m x x := fun _ => Or.inl rfl
  have hbase : List.Forall₂ (retypeRel m)
      (wrappedIdx pre ++ RawIdx.tensor { m with dtype := DType.uint8 } :: wrappedIdx post)
      (wrappedIdx pre ++ RawIdx.tensor { m with dtype := DType.bool } :: wrappedIdx post) :=
    List.rel_append (List.forall₂_same.mpr fun x _ => hR x)
      (List.Forall₂.cons (Or.inr ⟨rfl, rfl⟩) (List.forall₂_same.mpr fun x _ => hR x))
  have hp : ∀ x y, retypeRel m x y →
      (x == RawIdx.ellipsis) = (y == RawIdx.ellipsis) := by
    intro x y hxy
    rcases hxy with rfl | ⟨rfl, rfl⟩
    · rfl
    · rfl
  have hfi := findIdx_rel (· == RawIdx.ellipsis) (retypeRel m) hp hbase
  have hrel : List.Forall₂ (retypeRel m)
      (paddedIdx t (pre ++ RawIdx.tensor { m with dtype := DType.uint8 } :: post))
      (paddedIdx t (pre ++ RawIdx.tensor { m with dtype := DType.bool } :: post)) := by
    simp only [paddedIdx]
    rw [hwu, hwb, hfi, hns]
    exact List.rel_append (List.rel_append (List.forall₂_take _ hbase)
        (List.forall₂_same.mpr fun x _ => hR x))
      (List.forall₂_drop _ hbase)
  simp only [getitem, hns]
  by_cases hrk : t.rank < nSpec (pre ++ RawIdx.tensor { m with dtype := DType.bool } :: post)
  · rw [if_pos hrk, if_pos hrk]
    rfl
  · rw [if_neg hrk, if_neg hrk,
      maskLoop_retype t m hrel ⟨(List.range t.rank).map some, 0, []⟩]
    cases hm : maskLoop t ⟨(List.range t.rank).map some, 0, []⟩
        (paddedIdx t (pre ++ RawIdx.tensor { m with dtype := DType.bool } :: post)) with
    | error e => rfl
    | ok mst =>
      simp only [okBind, hwcnt]
      exact resolveTail_warn t mst _ _

/-! ### C6: boolean mask indexing -/

/-- Number of true entries of a mask tensor (row-major), the length of the
coordinate tensors `nonzero` produces. -/
def maskTrueCount (m : Tensor) : Nat :=
  ((allIdx m.shape).filter (fun ix => m.val ix ≠ 0)).length

/-- Every coordinate tensor produced by `nonzero` has shape `[count]`. -/
theorem nonzero_shape_mem (m : Tensor) : ∀ y ∈ nonzero m, y.shape = [maskTrueCount m] := by
  intro y hy
  simp only [nonzero] at hy
  rcases List.mem_map.mp hy with ⟨j, _, rfl⟩
  rfl

/-- One `maskLoop` step on a positive-rank mask slot. -/
theorem maskLoop_mask_step (self a : Tensor) (hd : isMaskD a.dtype = true)
    (h0 : ¬ a.rank = 0) (st : MaskState) (rest : List RawIdx) :
    maskLoop self st (RawIdx.tensor a :: rest)
      = if a.shape = (self.shape.drop st.i).take a.rank then
          maskLoop self ⟨st.initial_reorder, st.i + a.rank,
            st.new_index ++ (nonzero a).map RawIdx.tensor⟩ rest
        else Except.error Err.shapeMismatch := by
  simp only [maskLoop]
  rw [if_pos hd, if_neg h0]

/-- A run of full slices through the mask-expansion loop advances the cursor
and copies the slices. -/
theorem maskLoop_slcs (self : Tensor) : ∀ (j : Nat) (st : MaskState) (rest : List RawIdx),
    maskLoop self st (List.replicate j (RawIdx.slc empty_slice) ++ rest)
      = maskLoop self ⟨st.initial_reorder, st.i + j,
          st.new_index ++ List.replicate j (RawIdx.slc empty_slice)⟩ rest := by
  intro j
  induction j with
  | zero =>
    intro st rest
    simp only [List.replicate_zero, List.nil_append, List.append_nil, Nat.add_zero]
  | succ j ih =>
    intro st rest
    obtain ⟨ir, ci, ni⟩ := st
    rw [List.replicate_succ, List.cons_append]
    simp only [maskLoop]
    rw [ih, List.append_assoc, List.singleton_append,
      show ci + 1 + j = ci + (j + 1) from by omega]

/-- A run of full slices through the plan-building loop extends the
permutation by the corresponding source axes. -/
theorem planLoop_slcs : ∀ (j : Nat) (st : PlanState) (rest : List RawIdx),
    planLoop st (List.replicate j (RawIdx.slc empty_slice) ++ rest)
      = planLoop { st with permute := st.permute ++ (List.range' st.offset j).map some,
                           seen := st.seen + j, offset := st.offset + j } rest := by
  intro j
  induction j with
  | zero =>
    intro st rest
    simp only [List.replicate_zero, List.nil_append, List.range'_zero, List.map_nil,
      List.append_nil, Nat.add_zero]
  | succ j ih =>
    intro st rest
    obtain ⟨sd, sl, gd, gt, pm, hn, off, sn, gp⟩ := st
    rw [List.replicate_succ, List.cons_append]
    simp only [planLoop, eq_self_iff_true, if_true]
    rw [ih, List.append_assoc, List.singleton_append, ← List.map_cons, ← List.range'_succ,
      show sn + 1 + j = sn + (j + 1) from by omega,
      show off + 1 + j = off + (j + 1) from by omega]

/-- The insertion-point update is stable once fixed at the current `seen`. -/
theorem gipUpd_fix (s : Nat) : ∀ (ts : List Tensor),
    ts.foldl (fun g _ => gipUpd g s) (some s) = some s := by
  intro ts
  induction ts with
  | nil => rfl
  | cons a ts ih =>
    rw [List.foldl_cons, show gipUpd (some s) s = some s from by simp [gipUpd]]
    exact ih

/-- A non-empty run of advanced slots at one `seen` value fixes the insertion
point there. -/
theorem gip_run (s : Nat) : ∀ (ts : List Tensor), ts ≠ [] →
    ts.foldl (fun g _ => gipUpd g s) Option.none = some s := by
  intro ts hts
  cases ts with
  | nil => exact absurd rfl hts
  | cons a ts =>
    rw [List.foldl_cons, show gipUpd Option.none s = some s from rfl]
    exact gipUpd_fix s ts

/-- A run of tensor slots through the plan-building loop extends the gather
plan with the corresponding source axes. -/
theorem planLoop_tensors : ∀ (ts : List Tensor) (st : PlanState) (rest : List RawIdx),
    planLoop st (ts.map RawIdx.tensor ++ rest)
      = planLoop { st with gather_dims := st.gather_dims ++ List.range' st.offset ts.length,
                           gather_tensors := st.gather_tensors ++ ts,
                           gip := ts.foldl (fun g _ => gipUpd g st.seen) st.gip,
                           offset := st.offset + ts.length } rest := by
  intro ts
  induction ts with
  | nil =>
    intro st rest
    simp only [List.map_nil, List.nil_append, List.length_nil, List.range'_zero,
      List.append_nil, List.foldl_nil, Nat.add_zero]
  | cons a ts ih =>
    intro st rest
    obtain ⟨sd, sl, gd, gt, pm, hn, off, sn, gp⟩ := st
    rw [List.map_cons, List.cons_append]
    simp only [planLoop]
    rw [ih, List.length_cons, List.foldl_cons, List.append_assoc, List.singleton_append,
      ← List.range'_succ, List.append_assoc, List.singleton_append,
      show off + 1 + ts.length = off + (ts.length + 1) from by omega]

/-- Broadcasting a shape with itself is the identity. -/
theorem zip_self_mapM (S : List Nat) :
    (S.zip S).mapM (fun p => bcastDim p.1 p.2) = some S := by
  induction S with
  | nil => rfl
  | cons a S ih =>
    rw [List.zip_cons_cons, List.mapM_cons,
      show bcastDim a a = some a from by rw [bcastDim, if_pos rfl], ih]
    rfl

/-- `bcastShape2` of a shape with itself. -/
theorem bcastShape2_self (S : List Nat) : bcastShape2 S S = some S := by
  rw [bcastShape2]
  simp only [Nat.max_self, Nat.sub_self, List.replicate_zero, List.nil_append]
  exact zip_self_mapM S

/-- Broadcasting a shape against all-ones. -/
theorem ones_zip_mapM (S : List Nat) :
    ((List.replicate S.length 1).zip S).mapM (fun p => bcastDim p.1 p.2) = some S := by
  induction S with
  | nil => rfl
  | cons a S ih =>
    have h1 : bcastDim 1 a = some a := by
      rw [bcastDim]
      by_cases h : (1 : Nat) = a
      · rw [if_pos h, h]
      · rw [if_neg h, if_pos rfl]
    rw [List.length_cons, List.replicate_succ, List.zip_cons_cons, List.mapM_cons, h1, ih]
    rfl

/-- `bcastShape2` of the empty seed with a shape. -/
theorem bcastShape2_nil (S : List Nat) : bcastShape2 [] S = some S := by
  rw [bcastShape2]
  simp only [List.length_nil, Nat.zero_max, Nat.sub_zero, Nat.sub_self,
    List.replicate_zero, List.nil_append, List.append_nil]
  exact ones_zip_mapM S

/-- Folding `bcastShape2` over copies of the accumulated shape is stable. -/
theorem foldlM_bcast_const (S : List Nat) : ∀ (ts : List (List Nat)), (∀ x ∈ ts, x = S) →
    ts.foldlM bcastShape2 S = some S := by
  intro ts
  induction ts with
  | nil => intro _; rfl
  | cons a ts ih =>
    intro h
    rw [List.foldlM_cons, h a (by simp), bcastShape2_self]
    exact ih fun x hx => h x (by simp [hx])

/-- The broadcast shape of equal shapes is that shape. -/
theorem broadcastShapes_const (S : List Nat) : ∀ (ts : List (List Nat)), ts ≠ [] →
    (∀ x ∈ ts, x = S) → broadcastShapes ts = some S := by
  intro ts hne h
  cases ts with
  | nil => exact absurd rfl hne
  | cons a ts =>
    rw [broadcastShapes, List.foldlM_cons, h a (by simp), bcastShape2_nil]
    exact foldlM_bcast_const S ts fun x hx => h x (by simp [hx])

/-- `expandTo` imposes the broadcast shape. -/
theorem expandTo_shape (x : Tensor) (B : List Nat) : (expandTo x B).shape = B := rfl

/-- Broadcasting the `nonzero` coordinate tensors succeeds (they share the
shape `[count]`). -/
theorem broadcast_nonzero (mask : Tensor) (hk : 0 < mask.rank) :
    broadcast_tensors (nonzero mask)
      = Except.ok ((nonzero mask).map (expandTo · [maskTrueCount mask])) := by
  have hne : nonzero mask ≠ [] := by
    have hl := nonzero_length mask
    intro h
    rw [h] at hl
    simp at hl
    omega
  have hbs : broadcastShapes ((nonzero mask).map (·.shape)) = some [maskTrueCount mask] := by
    refine broadcastShapes_const _ _ ?_ ?_
    · intro h
      exact hne (by simpa using h)
    · intro x hx
      rcases List.mem_map.mp hx with ⟨y, hy, rfl⟩
      exact nonzero_shape_mem mask y hy
  rw [broadcast_tensors, hbs]

/-- Shifting a permutation of plain axes never hits a `None` entry. -/
theorem shiftPermute_map_some (nb : Nat) : ∀ (l : List Nat),
    shiftPermute nb (l.map some) = Except.ok (l.map (fun j => some (j + nb))) := by
  intro l
  induction l with
  | nil => rfl
  | cons a l ih =>
    rw [List.map_cons, List.map_cons]
    simp only [shiftPermute]
    rw [ih]
    rfl

/-- Mapping `getD` over a contiguous index range extracts a segment. -/
theorem range_map_getD {α : Type} (S : List α) (d : α) : ∀ (m q : Nat), q + m ≤ S.length →
    (List.range' q m).map (fun j => S.getD j d) = (S.drop q).take m := by
  intro m
  induction m with
  | zero => intro q _; simp
  | succ m ih =>
    intro q h
    have hq : q < S.length := by omega
    rw [List.range'_succ, List.map_cons, ih (q + 1) (by omega),
      List.drop_eq_getElem_cons hq, List.take_succ_cons, List.getD_eq_getElem S d hq]

/-- A position inside the replicated-ones block of a composite shape reads 1. -/
theorem getD_middle_one (A D : List Nat) (k a : Nat) (h1 : A.length ≤ a)
    (h2 : a < A.length + k) :
    (A ++ (List.replicate k 1 ++ D)).getD a 0 = 1 := by
  rw [List.getD_append_right A _ 0 a h1,
    List.getD_append _ _ 0 _ (by rw [List.length_replicate]; omega),
    List.getD_eq_getElem _ _ (by rw [List.length_replicate]; omega), List.getElem_replicate]

/-- Success form of `prim_reorder` when the order is in range and covers
every non-1 axis. -/
theorem prim_reorder_ok_full (t : Tensor) (order : List (Option Nat))
    (hb : ∀ o ∈ order, ∀ j, o = some j → j < t.rank)
    (hcov : ∀ i, i < t.rank → some i ∈ order ∨ t.shape.getD i 0 = 1) :
    prim_reorder t order = Except.ok
      { shape := order.map (fun o => match o with
          | some j => t.shape.getD j 0
          | Option.none => 1),
        stride := order.map (fun o => match o with
          | some j => t.stride.getD j 0
          | Option.none => 0),
        offset := t.offset, storage := t.storage, dtype := t.dtype, oid := t.oid + 1 } := by
  have hbool : ∀ i : Nat, ((order.contains (some i) || t.shape.getD i 0 == 1) = true) ↔
      (some i ∈ order ∨ t.shape.getD i 0 = 1) := by
    intro i
    simp [Bool.or_eq_true, List.elem_eq_mem, beq_iff_eq, decide_eq_true_eq]
  have hall : (List.range t.rank).all
      (fun i => order.contains (some i) || t.shape.getD i 0 == 1) = true := by
    rw [List.all_eq_true]
    intro i hi
    exact (hbool i).mpr (hcov i (List.mem_range.mp hi))
  rw [prim_reorder, if_pos hall, reorderPick_ok t order hb, okBind]
  have h1 : ((order.map (fun o => match o with
      | some j => (t.shape.getD j 0, t.stride.getD j 0)
      | Option.none => (1, 0))).map (·.1))
      = order.map (fun o => match o with
        | some j => t.shape.getD j 0
        | Option.none => 1) := by
    rw [List.map_map]
    exact List.map_congr_left fun o _ => by cases o <;> rfl
  have h2 : ((order.map (fun o => match o with
      | some j => (t.shape.getD j 0, t.stride.getD j 0)
      | Option.none => (1, 0))).map (·.2))
      = order.map (fun o => match o with
        | some j => t.stride.getD j 0
        | Option.none => 0) := by
    rw [List.map_map]
    exact List.map_congr_left fun o _ => by cases o <;> rfl
  rw [h1, h2]

/-- Bind through an Except `pure`. -/
theorem pureBind {α β : Type} (a : α) (f : α → Except Err β) :
    (pure a : Except Err α) >>= f = f a := rfl

/-- Adding one to each axis of a contiguous range shifts the range. -/
theorem range'_map_some_succ : ∀ (m q : Nat),
    (List.range' q m).map (fun j => some (j + 1)) = (List.range' (q + 1) m).map some := by
  intro m
  induction m with
  | zero => intro q; rfl
  | succ m ih =>
    intro q
    rw [List.range'_succ, List.range'_succ, List.map_cons, List.map_cons, ih]

/-- The primitive-execution stage of a single rank-k mask after `i` full
slices: the gather runs on the `nonzero` coordinates and the final reorder
collapses the k gathered axes into the one broadcast axis. -/
theorem mask_tail (t self1 mask : Tensor) (i pd w : Nat) (c : Bool)
    (hs1shape : self1.shape = t.shape) (hs1rank : self1.rank = t.rank)
    (hk : 0 < mask.rank) (hik : i + mask.rank ≤ t.rank) (hpd : i + mask.rank + pd = t.rank) :
    ∃ r tr,
      afterPlan t self1
        (⟨[], [], List.range' i mask.rank, nonzero mask,
          (List.range' 0 i).map some ++ (List.range' (i + mask.rank) pd).map some,
          false, i + mask.rank + pd, i + pd, some i⟩ : PlanState) c w
        = Except.ok (r, tr)
      ∧ r.shape = t.shape.take i ++ maskTrueCount mask :: t.shape.drop (i + mask.rank) := by
  rw [afterPlan]
  dsimp only
  have hgne : ¬ (List.range' i mask.rank).isEmpty = true := by
    rw [List.isEmpty_iff, List.range'_eq_nil]
    omega
  simp only [List.isEmpty_nil, eq_self_iff_true, if_true, Bool.not_true, pureBind]
  rw [if_neg hgne, broadcast_nonzero mask hk, okBind]
  have hhead : ((((nonzero mask)).map (expandTo · [maskTrueCount mask])).headD default).shape
      = [maskTrueCount mask] := by
    have hl := nonzero_length mask
    cases hnz : nonzero mask with
    | nil => rw [hnz] at hl; simp at hl; omega
    | cons a l => rw [List.map_cons]; rfl
  have hnb : ((((nonzero mask)).map (expandTo · [maskTrueCount mask])).headD default).rank
      = 1 := by
    rw [Tensor.rank, hhead]
    rfl
  rw [hnb, ← List.map_append, shiftPermute_map_some, okBind]
  simp only [Option.getD_some]
  rw [List.map_append]
  have hlA : ((List.range' 0 i).map (fun j => some (j + 1))).length = i := by
    simp
  rw [List.take_left' hlA, List.drop_left' hlA,
    show List.map some (List.range 1) = [some 0] from rfl,
    range'_map_some_succ, range'_map_some_succ]
  simp only [Nat.zero_add]
  have hlen_t : t.shape.length = t.rank := rfl
  set BTS := List.map (fun x => expandTo x [maskTrueCount mask]) (nonzero mask) with hBTS
  set G := prim_gather self1 (List.range' i mask.rank) BTS with hG
  set P := (List.map some (List.range' 1 i) ++ [some 0]) ++
      List.map some (List.range' (i + mask.rank + 1) pd) with hP
  have hbts_len : BTS.length = (List.range' i mask.rank).length := by
    rw [hBTS]
    simp [nonzero_length]
  have hbts_mem : ∀ x ∈ BTS, x.shape = [maskTrueCount mask] := by
    rw [hBTS]
    intro x hx
    rcases List.mem_map.mp hx with ⟨y, _, rfl⟩
    rfl
  have hgdne : List.range' i mask.rank ≠ [] := by
    rw [Ne, List.range'_eq_nil]
    omega
  have hgdlt : ∀ d ∈ List.range' i mask.rank, d < self1.rank := by
    intro d hd
    rw [hs1rank]
    have h := List.mem_range'_1.mp hd
    omega
  have hg := gather_shape_core self1 (List.range' i mask.rank) BTS [maskTrueCount mask]
      hgdne hgdlt hbts_len hbts_mem
  have hgsh : G.shape = maskTrueCount mask ::
      (t.shape.take i ++ (List.replicate mask.rank 1 ++ t.shape.drop (i + mask.rank))) := by
    rw [hG, hg.1]
    simp only [hs1shape, hs1rank]
    have hcong : ∀ j ∈ List.range t.rank,
        (if j ∈ List.range' i mask.rank then 1 else t.shape.getD j 0)
          = (if i ≤ j ∧ j < i + mask.rank then 1 else t.shape.getD j 0) := by
      intro j _
      exact if_congr List.mem_range'_1 rfl rfl
    rw [List.map_congr_left hcong, show t.rank = t.shape.length from rfl,
      range_map_blk t.shape i mask.rank hik]
    rw [List.append_assoc, List.singleton_append]
  have hglen : G.shape.length = t.rank + 1 := by
    rw [hgsh]
    simp [List.length_append, List.length_take, List.length_replicate, List.length_drop]
    omega
  have hPlen : P.length = i + 1 + pd := by
    rw [hP]
    simp [List.length_append]
    omega
  have hnr : needsReorder G P = true := by
    rw [needsReorder]
    have h1 : G.rank ≠ P.length := by
      rw [Tensor.rank, hglen, hPlen]
      omega
    rw [decide_eq_true h1, Bool.true_or]
  have hb : ∀ o ∈ P, ∀ j, o = some j → j < G.rank := by
    intro o ho j hj
    subst hj
    rw [Tensor.rank, hglen]
    rw [hP] at ho
    rcases List.mem_append.mp ho with h | h
    · rcases List.mem_append.mp h with h' | h'
      · rcases List.mem_map.mp h' with ⟨x, hx, hxe⟩
        injection hxe with hxe
        subst hxe
        have hxx := List.mem_range'_1.mp hx
        omega
      · rw [List.mem_singleton] at h'
        injection h' with h'
        omega
    · rcases List.mem_map.mp h with ⟨x, hx, hxe⟩
      injection hxe with hxe
      subst hxe
      have hxx := List.mem_range'_1.mp hx
      omega
  have hcov : ∀ a, a < G.rank → some a ∈ P ∨ G.shape.getD a 0 = 1 := by
    intro a ha
    rw [Tensor.rank, hglen] at ha
    rcases Nat.eq_zero_or_pos a with rfl | hapos
    · left
      rw [hP]
      exact List.mem_append.mpr (Or.inl (List.mem_append.mpr (Or.inr
        (List.mem_singleton.mpr rfl))))
    · by_cases hle : a ≤ i
      · left
        rw [hP]
        refine List.mem_append.mpr (Or.inl (List.mem_append.mpr (Or.inl ?_)))
        exact List.mem_map.mpr ⟨a, List.mem_range'_1.mpr ⟨hapos, by omega⟩, rfl⟩
      · by_cases hle2 : a ≤ i + mask.rank
        · right
          obtain ⟨a2, rfl⟩ : ∃ a2, a = a2 + 1 := ⟨a - 1, by omega⟩
          rw [hgsh, List.getD_cons_succ]
          exact getD_middle_one (t.shape.take i) (t.shape.drop (i + mask.rank)) mask.rank a2
            (by rw [List.length_take]; omega) (by rw [List.length_take]; omega)
        · left
          rw [hP]
          refine List.mem_append.mpr (Or.inr ?_)
          exact List.mem_map.mpr ⟨a, List.mem_range'_1.mpr ⟨by omega, by omega⟩, rfl⟩
  have hre := prim_reorder_ok_full G P hb hcov
  have hlt : (t.shape.take i).length = i := by
    rw [List.length_take]
    omega
  have hPmap : P.map (fun o => match o with
      | some j => G.shape.getD j 0
      | Option.none => 1)
      = t.shape.take i ++ maskTrueCount mask :: t.shape.drop (i + mask.rank) := by
    rw [hP, List.map_append, List.map_append, List.map_map, List.map_map]
    have hc1 : ∀ j ∈ List.range' 1 i, ((fun o : Option Nat => match o with
        | some j => G.shape.getD j 0
        | Option.none => 1) ∘ some) j = G.shape.getD j 0 := fun j _ => rfl
    have hc2 : ∀ j ∈ List.range' (i + mask.rank + 1) pd, ((fun o : Option Nat => match o with
        | some j => G.shape.getD j 0
        | Option.none => 1) ∘ some) j = G.shape.getD j 0 := fun j _ => rfl
    rw [List.map_congr_left hc1, List.map_congr_left hc2,
      show List.map (fun o : Option Nat => match o with
        | some j => G.shape.getD j 0
        | Option.none => 1) [some 0] = [G.shape.getD 0 0] from rfl]
    rw [range_map_getD G.shape 0 i 1 (by rw [hglen]; omega),
        range_map_getD G.shape 0 pd (i + mask.rank + 1) (by rw [hglen]; omega)]
    rw [hgsh, List.getD_cons_zero, List.drop_one, List.tail_cons, List.drop_succ_cons]
    rw [List.take_left' hlt]
    have hd1 : (t.shape.take i).drop (i + mask.rank) = [] :=
      List.drop_eq_nil_of_le (by simp [List.length_take]; try omega)
    have hd2 : (List.replicate mask.rank (1 : Nat)).drop mask.rank = [] :=
      List.drop_eq_nil_of_le (by simp)
    have ht3 : (t.shape.drop (i + mask.rank)).take pd = t.shape.drop (i + mask.rank) :=
      List.take_of_length_le (by simp [List.length_drop]; omega)
    rw [List.drop_append_eq_append_drop, hd1, List.nil_append, hlt,
      show i + mask.rank - i = mask.rank from by omega,
      List.drop_append_eq_append_drop, hd2, List.nil_append, List.length_replicate,
      Nat.sub_self, List.drop_zero, ht3]
    rw [List.append_assoc, List.singleton_append]
  rw [finishTail, if_pos hnr, hre, okBind]
  refine ⟨_, _, rfl, ?_⟩
  split
  · exact hPmap
  · exact hPmap

/-- C6: for a rank-k boolean/byte mask slot aligned at source dimension `i`
(after `i` full slices), resolution fails with the shape-mismatch error
exactly when the mask's shape differs from the source's shape over dimensions
`i..i+k-1`; when the shapes match, those `k` dimensions are replaced by
coordinate indexing that collapses them into a single output dimension whose
length is the number of true entries of the mask. -/
theorem getitem_mask_spec (t mask : Tensor) (i : Nat)
    (hm : isMaskD mask.dtype = true) (hk : 0 < mask.rank)
    (hik : i + mask.rank ≤ t.rank) :
    (mask.shape ≠ (t.shape.drop i).take mask.rank →
      getitem t (List.replicate i (RawIdx.slc empty_slice) ++ [RawIdx.tensor mask])
        = Except.error Err.shapeMismatch)
    ∧ (mask.shape = (t.shape.drop i).take mask.rank →
      ∃ r tr, getitem t (List.replicate i (RawIdx.slc empty_slice) ++ [RawIdx.tensor mask])
          = Except.ok (r, tr)
        ∧ r.shape = t.shape.take i ++ maskTrueCount mask :: t.shape.drop (i + mask.rank)) := by
  have hk0 : ¬ mask.rank = 0 := by omega
  have hwrapexpr : wrappedIdx (List.replicate i (RawIdx.slc empty_slice) ++ [RawIdx.tensor mask])
      = List.replicate i (RawIdx.slc empty_slice) ++ [RawIdx.tensor mask] := by
    rw [wrappedIdx, List.map_append, List.map_replicate]
    rfl
  have hns : nSpec (List.replicate i (RawIdx.slc empty_slice) ++ [RawIdx.tensor mask])
      = i + mask.rank := by
    rw [nSpec, hwrapexpr, List.map_append, List.map_replicate, List.sum_append,
      show n_specified (RawIdx.slc empty_slice) = 1 from rfl,
      show List.map n_specified [RawIdx.tensor mask] = [n_specified (RawIdx.tensor mask)]
        from rfl,
      show n_specified (RawIdx.tensor mask)
        = if isMaskD mask.dtype = true then mask.rank else 1 from rfl,
      if_pos hm, List.sum_replicate, smul_eq_mul, mul_one, List.sum_cons, List.sum_nil]
    omega
  have hrank : ¬ t.rank < nSpec (List.replicate i (RawIdx.slc empty_slice)
      ++ [RawIdx.tensor mask]) := by
    rw [hns]
    omega
  have hfi : (List.replicate i (RawIdx.slc empty_slice) ++ [RawIdx.tensor mask]).findIdx
      (· == RawIdx.ellipsis) = i + 1 := by
    have hall : ∀ x ∈ List.replicate i (RawIdx.slc empty_slice) ++ [RawIdx.tensor mask],
        (x == RawIdx.ellipsis) = false := by
      intro x hx
      rcases List.mem_append.mp hx with h | h
      · rw [List.eq_of_mem_replicate h]
        rfl
      · rw [List.mem_singleton.mp h]
        rfl
    simpa using List.findIdx_eq_length.mpr hall
  have hpadeq : paddedIdx t (List.replicate i (RawIdx.slc empty_slice) ++ [RawIdx.tensor mask])
      = List.replicate i (RawIdx.slc empty_slice) ++ RawIdx.tensor mask ::
          List.replicate (t.rank - (i + mask.rank)) (RawIdx.slc empty_slice) := by
    simp only [paddedIdx]
    rw [hwrapexpr, hfi, hns]
    rw [List.take_of_length_le (by simp), List.drop_eq_nil_of_le (by simp), List.append_nil]
    rw [List.append_assoc, List.singleton_append]
  have hmapid : ((List.range t.rank).map some).map (fun o => match o with
      | some j => t.shape.getD j 0
      | Option.none => 1) = t.shape := by
    rw [List.map_map]
    have hc : ∀ j ∈ List.range t.rank, ((fun o : Option Nat => match o with
        | some j2 => t.shape.getD j2 0
        | Option.none => 1) ∘ some) j = t.shape.getD j 0 := fun j _ => rfl
    rw [List.map_congr_left hc, show t.rank = t.shape.length from rfl, map_getD_self]
  have hb0 : ∀ o ∈ (List.range t.rank).map some, ∀ j, o = some j → j < t.rank := by
    intro o ho j hj
    subst hj
    rcases List.mem_map.mp ho with ⟨x, hx, hxe⟩
    injection hxe with hxe
    subst hxe
    exact List.mem_range.mp hx
  have hcov0 : ∀ a, a < t.rank →
      some a ∈ (List.range t.rank).map some ∨ t.shape.getD a 0 = 1 :=
    fun a ha => Or.inl (List.mem_map.mpr ⟨a, List.mem_range.mpr ha, rfl⟩)
  have hnzne : nonzero mask ≠ [] := by
    have hl := nonzero_length mask
    intro h
    rw [h] at hl
    simp at hl
    omega
  constructor
  · intro hne
    rw [getitem, if_neg hrank, hpadeq, maskLoop_slcs]
    simp only [Nat.zero_add, List.nil_append]
    rw [maskLoop_mask_step t mask hm hk0]
    dsimp only
    rw [if_neg hne, errBind]
  · intro hsh
    rw [getitem, if_neg hrank, hpadeq, maskLoop_slcs]
    simp only [Nat.zero_add, List.nil_append]
    rw [maskLoop_mask_step t mask hm hk0]
    dsimp only
    rw [if_pos hsh]
    rw [show List.replicate (t.rank - (i + mask.rank)) (RawIdx.slc empty_slice)
        = List.replicate (t.rank - (i + mask.rank)) (RawIdx.slc empty_slice)
            ++ ([] : List RawIdx)
        from (List.append_nil _).symm, maskLoop_slcs]
    dsimp only
    rw [show (∀ st : MaskState, maskLoop t st ([] : List RawIdx) = Except.ok st)
        from fun st => rfl, okBind]
    simp only [hns, List.length_map, List.length_range]
    rw [List.append_assoc, planLoop_slcs]
    simp only [planInit, Nat.zero_add, List.nil_append]
    rw [planLoop_tensors]
    simp only [nonzero_length, Nat.zero_add, List.nil_append]
    rw [gip_run i (nonzero mask) hnzne]
    rw [show List.replicate (t.rank - (i + mask.rank)) (RawIdx.slc empty_slice)
        = List.replicate (t.rank - (i + mask.rank)) (RawIdx.slc empty_slice)
            ++ ([] : List RawIdx)
        from (List.append_nil _).symm, planLoop_slcs]
    simp only [Nat.zero_add, List.nil_append]
    rw [show (∀ st : PlanState, planLoop st ([] : List RawIdx) = Except.ok st)
        from fun st => rfl]
    simp only [okBind]
    by_cases hcor : i + mask.rank < t.rank
    · rw [if_pos (decide_eq_true hcor)]
      rw [prim_reorder_ok_full t ((List.range t.rank).map some) hb0 hcov0, okBind]
      refine mask_tail t _ mask i (t.rank - (i + mask.rank)) _ _ ?_ ?_ hk hik (by omega)
      · exact hmapid
      · exact (congrArg List.length hmapid).trans (rfl : t.shape.length = t.rank)
    · rw [if_neg (by rw [decide_eq_false hcor]; exact Bool.false_ne_true), pureBind]
      exact mask_tail t t mask i (t.rank - (i + mask.rank)) _ _ rfl rfl hk hik (by omega)


/-! ### Concrete witness inputs and evaluated outputs -/

/-- A 2×2 int64 source tensor. -/
def T5 : Tensor := ⟨[2, 2], [2, 1], 0, ⟨0, [1, 2, 3, 4]⟩, DType.int64, 0⟩

/-- The result of `getitem T5 [0]`. -/
def R5 : Tensor := ⟨[2], [1], 0, ⟨0, [1, 2, 3, 4]⟩, DType.int64, 3⟩

/-- The trace of `getitem T5 [0]`. -/
def TR5 : Trace := ⟨true, true, Option.none, true, 0⟩

/-- The result of `getitem T5 [:, :]`. -/
def R4 : Tensor := ⟨[2, 2], [2, 1], 0, ⟨0, [1, 2, 3, 4]⟩, DType.int64, 1⟩

/-- The trace of `getitem T5 [:, :]`. -/
def TR4 : Trace := ⟨false, false, Option.none, false, 0⟩

/-- A one-element int64 coordinate tensor. -/
def A3 : Tensor := ⟨[1], [1], 0, ⟨50, [0]⟩, DType.int64, 3⟩

/-- A second one-element int64 coordinate tensor. -/
def B3 : Tensor := ⟨[1], [1], 0, ⟨60, [0]⟩, DType.int64, 4⟩

/-- The result of `getitem T5 [A3]` (advanced indexing: a copy). -/
def R1 : Tensor := ⟨[1, 2], [2, 1], 0, ⟨1, [1, 2]⟩, DType.int64, 4⟩

/-- The trace of `getitem T5 [A3]`. -/
def TR1 : Trace := ⟨true, false, some ([1], [0], [2, 2]), true, 0⟩

/-- The slot pattern tensor-slice-tensor (advanced indices split by a slice). -/
def SLOTS3 : List RawIdx :=
  [RawIdx.slc empty_slice, RawIdx.tensor A3, RawIdx.slc empty_slice, RawIdx.tensor B3]

/-- The plan state `planLoop` builds for `SLOTS3`. -/
def PST3 : PlanState :=
  ⟨[], [], [1, 3], [A3, B3], [some 0, some 2], false, 4, 2, some 0⟩

/-- A one-dimensional source of size 5 for the integer-bounds witness. -/
def T8 : Tensor := ⟨[5], [1], 0, ⟨0, [10, 11, 12, 13, 14]⟩, DType.int64, 0⟩

/-- The reorder source of shape `(2,1,5,3)` from the module-level assert. -/
def T9 : Tensor := ⟨[2, 1, 5, 3], [15, 15, 3, 1], 0, ⟨0, []⟩, DType.int64, 0⟩

/-- The reorder order `[0, 3, 2, None]` from the module-level assert. -/
def O9 : List (Option Nat) := [some 0, some 3, some 2, Option.none]

/-- The result of `prim_reorder T9 O9`. -/
def R9 : Tensor := ⟨[2, 3, 5, 1], [15, 1, 3, 0], 0, ⟨0, []⟩, DType.int64, 1⟩

/-- The gather source of shape `(3,4,5)` from the module-level assert. -/
def T2 : Tensor := ⟨[3, 4, 5], [20, 5, 1], 0, ⟨0, []⟩, DType.int64, 0⟩

/-- A coordinate tensor of shape `(4,5)` for the gather witness. -/
def I2 : Tensor := ⟨[4, 5], [5, 1], 0, ⟨7, []⟩, DType.int64, 0⟩

/-- Integer slicing on a size-5 dimension: index `-1` wraps to `4`, is in
bounds, and yields a view of the same storage. -/
theorem prim_slice_int_bounds_witness :
    0 < T8.rank ∧
    ∃ r, prim_slice T8 [0] [SliceOrInt.i (-1)] = Except.ok r ∧ r.storage = T8.storage :=
  ⟨by decide, (prim_slice_int_bounds T8 0 (-1) (by decide)).2 (by decide)⟩

/-- Reordering the `(2,1,5,3)` source with order `[0,3,2,None]` succeeds and
yields shape `(2,3,5,1)`, sharing the source storage. -/
theorem prim_reorder_spec_witness :
    prim_reorder T9 O9 = Except.ok R9 ∧ R9.shape = [2, 3, 5, 1]
      ∧ R9.stride = [15, 1, 3, 0] ∧ R9.storage = T9.storage := by
  have hO : ∀ o ∈ O9, ∀ j, o = some j → j < T9.rank := by
    intro o ho j hj
    subst hj
    simp only [O9, List.mem_cons, List.not_mem_nil, or_false, Option.some.injEq,
      reduceCtorEq] at ho
    rcases ho with rfl | rfl | rfl
    · decide
    · decide
    · decide
  have hok : prim_reorder T9 O9 = Except.ok R9 := rfl
  have h := (prim_reorder_spec T9 O9 hO).2 R9 hok
  exact ⟨hok, h.1.trans (by rfl), h.2.1.trans (by rfl), h.2.2.1⟩

/-- Gathering dimension 1 of the `(3,4,5)` source with a `(4,5)` coordinate
array yields shape `(4,5,3,1,5)` backed by fresh storage. -/
theorem prim_gather_shape_witness :
    (prim_gather T2 [1] [I2]).shape = [4, 5, 3, 1, 5]
    ∧ (prim_gather T2 [1] [I2]).storage.id = T2.storage.id + 1 := by
  have h := prim_gather_shape T2 [1] [I2] [4, 5] (by decide) (by decide) rfl (by decide)
  exact ⟨h.1.trans (by rfl), h.2⟩

/-- On the tensor-slice-tensor pattern the two advanced slots are reached at
output positions 1 and 2, so the insertion point is forced to 0. -/
theorem planLoop_insert_point_witness :
    planLoop planInit SLOTS3 = Except.ok PST3 ∧ PST3.gip = some 0 := by
  have hok : planLoop planInit SLOTS3 = Except.ok PST3 := rfl
  have h := planLoop_insert_point SLOTS3 PST3 A3 (by decide) hok
  exact ⟨hok, h.2 (by decide)⟩

/-- Basic indexing `T5[:, :]` shares storage; advanced indexing `T5[A3]`
allocates fresh storage with the incremented allocation id. -/
theorem getitem_view_or_copy_witness :
    (getitem T5 [RawIdx.slc empty_slice, RawIdx.slc empty_slice] = Except.ok (R4, TR4)
      ∧ R4.storage = T5.storage)
    ∧ (getitem T5 [RawIdx.tensor A3] = Except.ok (R1, TR1)
      ∧ R1.storage ≠ T5.storage ∧ R1.storage.id = T5.storage.id + 1) := by
  have h1 := getitem_view_or_copy.1 T5 [RawIdx.slc empty_slice, RawIdx.slc empty_slice]
      R4 TR4 (by decide) rfl
  have h2 := getitem_view_or_copy.2 T5 [RawIdx.tensor A3] R1 TR1
      ⟨RawIdx.tensor A3, by decide, rfl⟩ rfl
  exact ⟨⟨rfl, h1⟩, rfl, h2.1, h2.2.1⟩

/-- The pure pass-through `T5[:, :]` returns a distinct object with identical
metadata sharing the source storage. -/
theorem getitem_passthrough_witness :
    getitem T5 [RawIdx.slc empty_slice, RawIdx.slc empty_slice] = Except.ok (R4, TR4)
    ∧ R4.oid ≠ T5.oid ∧ R4.shape = T5.shape ∧ R4.stride = T5.stride
    ∧ R4.offset = T5.offset ∧ R4.storage = T5.storage := by
  have h := getitem_passthrough T5 [RawIdx.slc empty_slice, RawIdx.slc empty_slice]
      R4 TR4 rfl rfl rfl rfl rfl
  exact ⟨rfl, h.1, h.2.1, h.2.2.1, h.2.2.2.1, h.2.2.2.2.1⟩

/-- The amended corrective condition evaluated on `T5[0]`: the corrective
reorder runs because `1 < 2 + 0`. -/
theorem getitem_corrective_iff_witness :
    getitem T5 [RawIdx.intIdx 0] = Except.ok (R5, TR5)
    ∧ (TR5.corrective = true ↔
        nSpec [RawIdx.intIdx 0] < T5.rank + nScalarMasks (wrappedIdx [RawIdx.intIdx 0])) :=
  ⟨rfl, getitem_corrective_iff T5 [RawIdx.intIdx 0] R5 TR5 rfl⟩

/-- Counterexample to the scalar-mask-only reading of the corrective
condition: `T5[0]` contains no scalar mask, yet the corrective reorder runs
(positive padding alone triggers it). -/
theorem getitem_corrective_counterexample :
    nScalarMasks (wrappedIdx [RawIdx.intIdx 0]) = 0
    ∧ getitem T5 [RawIdx.intIdx 0] = Except.ok (R5, TR5)
    ∧ TR5.corrective = true :=
  ⟨rfl, rfl, rfl⟩

/-- A 2×3 int64 source for the mask witness. -/
def T6 : Tensor := ⟨[2, 3], [3, 1], 0, ⟨0, [10, 11, 12, 13, 14, 15]⟩, DType.int64, 0⟩

/-- A shape-(3) boolean mask with two true entries. -/
def M6 : Tensor := ⟨[3], [1], 0, ⟨70, [1, 0, 1]⟩, DType.bool, 5⟩

/-- The shape-(3) mask on dimension 1 of the 2×3 source matches and collapses
that dimension to the two true positions: result shape (2,2). -/
theorem getitem_mask_spec_witness :
    M6.shape = (T6.shape.drop 1).take M6.rank ∧
    ∃ r tr, getitem T6 (List.replicate 1 (RawIdx.slc empty_slice) ++ [RawIdx.tensor M6])
        = Except.ok (r, tr)
      ∧ r.shape = T6.shape.take 1 ++ maskTrueCount M6 :: T6.shape.drop (1 + M6.rank) :=
  ⟨rfl, (getitem_mask_spec T6 M6 1 rfl (by decide) (by decide)).2 rfl⟩

end PG
